import Mathlib

/-! # CompTree: random composite expression trees

A shallow embedding of `CompTree.c` / `CompTree.h`.

* `struct node` becomes the inductive type `Node`; the `next`-linked sibling
  chain hanging off `list` becomes a Lean `List Node` in chain order.
* The C globals (`brnchFile`, `leafFile`, the hidden state of `rand`) and the two
  `int` cells reached through `theDepthPtr` / `nodeCountPtr` are the fields of
  `State`, which `populate` threads explicitly.
* A `FILE*` is modelled as the list of the entries that `fscanf` parses from
  it, together with a cursor.  The text is taken to end in white space, so the
  end-of-file flag is raised exactly by a `fscanf` that finds no further entry.
* `int` values are mathematical integers (`Int`); `%` is C's truncating
  remainder `Int.tmod`.  Division by zero and a `while(numOps--)` entered with a
  negative counter are reported as a `Fault`.
* `printf` appends one fragment to the output; `express` returns the list of
  fragments in emission order.
-/

namespace CompTree

/-! ## Data model (CompTree.h) -/

/-- The C `enum nodeType`. -/
inductive nodeType
  | branch
  | leaf
  deriving DecidableEq, Repr

/-- A populated `struct node`.  A branch carries `pre`, `inter`, `post` and the
chain of subordinates `list`; a leaf carries `name` and `myDepth`. -/
inductive Node
  | branch (pre inter post : String) (list : List Node)
  | leaf (name : String) (myDepth : Int)

/-- One record of the operator file, as read by
`fscanf(brnchFile, "%s %s %s %d %d", pre, inter, post, &low, &high)`. -/
structure OpEntry where
  pre : String
  inter : String
  post : String
  low : Int
  high : Int

/-- Everything `populate` reads or writes besides the node under construction. -/
structure State where
  /-- The C library constant `RAND_MAX`. -/
  RAND_MAX : Nat
  /-- The values returned by successive calls of `rand()`. -/
  randSeq : Nat → Nat
  /-- Number of calls of `rand()` made so far. -/
  randCalls : Nat
  /-- Records of the operator file `brnchFile`. -/
  brnchFile : List OpEntry
  /-- Cursor of `brnchFile`: number of records already consumed. -/
  brnchPos : Nat
  /-- Tokens of the operand file `leafFile`. -/
  leafFile : List String
  /-- Cursor of `leafFile`. -/
  leafPos : Nat
  /-- The cell `*theDepthPtr`. -/
  theDepth : Int
  /-- The cell `*nodeCountPtr`. -/
  nodeCount : Int

/-- Abnormal outcomes of `populate` and of the loop of `main`. -/
inductive Fault
  /-- The computation `rand() % (high - low + 1)` with `high - low + 1 == 0`. -/
  | divByZero
  /-- The loop `while(numOps--)` entered with `numOps < 0`. -/
  | negativeCount
  /-- The recursion budget of the model was exhausted. -/
  | outOfFuel
  /-- The check `assert(!nodeCount)` of `main` failed. -/
  | assertFailed
  deriving DecidableEq, Repr

/-! ## populate (CompTree.c, lines 84-154) -/

/-- One call of `rand()`. -/
def rand (s : State) : Nat × State :=
  (s.randSeq s.randCalls, { s with randCalls := s.randCalls + 1 })

/-- Lines 103-108: read one operator record; at end of file rewind and read
again.  When even the second read finds nothing the fields keep the zeros that
`calloc` and the initialisers `low = 0`, `high = 0` gave them. -/
def readBranch (s : State) : OpEntry × State :=
  match s.brnchFile.get? s.brnchPos with
  | some e => (e, { s with brnchPos := s.brnchPos + 1 })
  | none =>
    match s.brnchFile.head? with
    | some e => (e, { s with brnchPos := 1 })
    | none => (⟨"", "", "", 0, 0⟩, { s with brnchPos := 0 })

/-- Lines 142-147: read one operand token; at end of file rewind and read
again. -/
def readLeaf (s : State) : String × State :=
  match s.leafFile.get? s.leafPos with
  | some t => (t, { s with leafPos := s.leafPos + 1 })
  | none =>
    match s.leafFile.head? with
    | some t => (t, { s with leafPos := 1 })
    | none => ("", { s with leafPos := 0 })

/-- Line 100: `*theDepthPtr += 1`. -/
def enterBranch (s : State) : State := { s with theDepth := s.theDepth + 1 }

/-- Line 134: `*theDepthPtr -= 1`. -/
def leaveBranch (s : State) : State := { s with theDepth := s.theDepth - 1 }

/-- Line 139: `*nodeCountPtr += 1`. -/
def countLeaf (s : State) : State := { s with nodeCount := s.nodeCount + 1 }

/-- Line 111: `numOps = (rand() % (high - low + 1)) + low`, for the draw `r`. -/
def numOps (e : OpEntry) (r : Nat) : Int := Int.tmod r (e.high - e.low + 1) + e.low

/-- Line 119: the kind of the new child, from the coin `r = rand()` and the two
trackers. -/
def chooseType (s : State) (r : Nat) : nodeType :=
  if r < s.RAND_MAX / 2 ∧ s.nodeCount < 20 ∧ s.theDepth < 7 then .branch else .leaf

/-- Lines 112-133: the loop `while(numOps--)`, with `k` iterations left.  The
argument `pop` is the recursive call `populate(newNode, ...)`. -/
def childLoop (pop : nodeType → State → Except Fault (Node × State)) :
    Nat → State → Except Fault (List Node × State)
  | 0, s => .ok ([], s)
  | k + 1, s =>
    match pop (chooseType (rand s).2 (rand s).1) (rand s).2 with
    | .error f => .error f
    | .ok (c, s2) =>
      match childLoop pop k s2 with
      | .error f => .error f
      | .ok (cs, s3) => .ok (c :: cs, s3)

/-- The body of `populate` for a fresh node of kind `ty`, with a bound on the
nesting of recursive calls. -/
def populateFuel : Nat → nodeType → State → Except Fault (Node × State)
  | _, .leaf, s =>
    .ok (.leaf (readLeaf (countLeaf s)).1 s.theDepth, (readLeaf (countLeaf s)).2)
  | 0, .branch, _ => .error .outOfFuel
  | fuel + 1, .branch, s =>
    let e := (readBranch (enterBranch s)).1
    let s2 := (readBranch (enterBranch s)).2
    let r := (rand s2).1
    if e.high - e.low + 1 = 0 then .error .divByZero
    else if numOps e r < 0 then .error .negativeCount
    else
      match childLoop (populateFuel fuel) (numOps e r).toNat (rand s2).2 with
      | .error f => .error f
      | .ok (cs, s4) => .ok (.branch e.pre e.inter e.post cs, leaveBranch s4)

/-- Nesting budget that `populate` needs from a given depth tracker: a branch
child is created only while the tracker is below 7. -/
def budget (s : State) : Nat := (7 - s.theDepth).toNat + 1

/-- The C function `populate`, called on a fresh node of kind `ty`. -/
def populate (ty : nodeType) (s : State) : Except Fault (Node × State) :=
  populateFuel (budget s) ty s

/-! ## express (CompTree.c, lines 159-195) -/

/-- The test `*(tok) == '.'` on a NUL-terminated string: the first character is
a full stop. -/
def suppressed (tok : String) : Bool :=
  match tok.data with
  | c :: _ => c == '.'
  | [] => false

mutual
/-- The C function `express`: the fragments printed, and the new value of
`*maxDepthPtr`. -/
def express : Node → Int → List String × Int
  | .branch pre inter post list, m =>
    let out := if suppressed pre then [] else [pre]
    let (body, m1) := expressList inter list m
    (out ++ body ++ (if suppressed post then [] else [post]), m1)
  | .leaf name myDepth, m => ([name], if myDepth > m then myDepth else m)
/-- The `for` loop of lines 175-180 over the chain starting at `aNode`. -/
def expressList (inter : String) : List Node → Int → List String × Int
  | [], m => ([], m)
  | aNode :: next, m =>
    let (o1, m1) := express aNode m
    let sep := if !next.isEmpty && !suppressed inter then [inter] else []
    let (o2, m2) := expressList inter next m1
    (o1 ++ sep ++ o2, m2)
end

/-! ## release (CompTree.c, lines 199-235) -/

mutual
/-- The C function `release`: the new value of `*nodeCountPtr`. -/
def release : Node → Int → Int
  | .branch _ _ _ list, n => releaseList list n
  | .leaf _ _, n => n - 1
/-- The `while(aNode)` loop of lines 214-220. -/
def releaseList : List Node → Int → Int
  | [], n => n
  | aNode :: next, n => releaseList next (release aNode n)
end

/-! ## The loop of main (CompTree.c, lines 51-72) -/

/-- One pass of the `for` loop of `main`: fresh trackers, `populate` on a fresh
branch node, the three `printf`/`express` steps, `release`, and the check
`assert(!nodeCount)`.  Returns the fragments printed and the state of the
files and of `rand` after the pass. -/
def mainCycle (s : State) : Except Fault (List String × State) :=
  match populate .branch { s with theDepth := 0, nodeCount := 0 } with
  | .error f => .error f
  | .ok (listHead, s1) =>
    if release listHead s1.nodeCount = 0 then
      .ok (["what = "] ++ (express listHead 0).1 ++
        ["; /* " ++ toString s1.nodeCount ++ " " ++ toString (express listHead 0).2 ++ " */\n"],
        s1)
    else .error .assertFailed

/-- The first `i` passes of the `for` loop of `main`. -/
def mainLoop : Nat → State → Except Fault (List String × State)
  | 0, s => .ok ([], s)
  | i + 1, s =>
    match mainCycle s with
    | .error f => .error f
    | .ok (out, s1) =>
      match mainLoop i s1 with
      | .error f => .error f
      | .ok (out2, s2) => .ok (out ++ out2, s2)

/-! ## Notions used in the specifications -/

/-- Two states agree on everything that `populate` only reads: the constant
`RAND_MAX`, the random sequence and the contents of both files. -/
def SameEnv (s s' : State) : Prop :=
  s'.RAND_MAX = s.RAND_MAX ∧ s'.randSeq = s.randSeq ∧
    s'.brnchFile = s.brnchFile ∧ s'.leafFile = s.leafFile

/-- Every record of the operator file has `0 <= low <= high`. -/
def ValidOps (s : State) : Prop :=
  ∀ e ∈ s.brnchFile, 0 ≤ e.low ∧ e.low ≤ e.high

/-- The kind of a node (`theType`). -/
def Node.theType : Node → nodeType
  | .branch _ _ _ _ => .branch
  | .leaf _ _ => .leaf

mutual
/-- Number of leaf nodes of a tree, by a traversal of its own. -/
def countLeaves : Node → Nat
  | .branch _ _ _ list => countLeavesList list
  | .leaf _ _ => 1
/-- Number of leaf nodes in a chain of siblings. -/
def countLeavesList : List Node → Nat
  | [] => 0
  | aNode :: next => countLeaves aNode + countLeavesList next
end

mutual
/-- The `myDepth` values stored on the leaves of a tree, left to right. -/
def leafDepths : Node → List Int
  | .branch _ _ _ list => leafDepthsList list
  | .leaf _ myDepth => [myDepth]
/-- The `myDepth` values stored on the leaves of a chain of siblings. -/
def leafDepthsList : List Node → List Int
  | [] => []
  | aNode :: next => leafDepths aNode ++ leafDepthsList next
end

mutual
/-- For every leaf, left to right, the pair of its stored `myDepth` and the
number of branch nodes on the path from the root down to it; `k` is the number
of branch nodes already passed above the current node. -/
def leafPaths : Nat → Node → List (Int × Nat)
  | k, .branch _ _ _ list => leafPathsList (k + 1) list
  | k, .leaf _ myDepth => [(myDepth, k)]
/-- The pairs of `leafPaths` for a chain of siblings lying below `k` branches. -/
def leafPathsList : Nat → List Node → List (Int × Nat)
  | _, [] => []
  | k, aNode :: next => leafPaths k aNode ++ leafPathsList k next
end

/-- The characters written to the console: the fragments in emission order,
concatenated. -/
def outputChars (frags : List String) : List Char :=
  (frags.map String.data).flatten

/-- A character sequence is parenthesis-balanced: every initial segment has at
least as many `(` as `)`, and the totals are equal. -/
def ParenBalanced (l : List Char) : Prop :=
  (∀ n, (l.take n).count ')' ≤ (l.take n).count '(') ∧ l.count '(' = l.count ')'

/-- A token without parentheses. -/
def NoParen (tok : String) : Prop := '(' ∉ tok.data ∧ ')' ∉ tok.data

mutual
/-- The token discipline of a parenthesising vocabulary: at every branch `pre`
and `post` are `(` and `)`, or both are the sentinel `.`; no `inter` and no leaf
name contains a parenthesis. -/
def ParenTokens : Node → Prop
  | .branch pre inter post list =>
    ((pre = "(" ∧ post = ")") ∨ (pre = "." ∧ post = ".")) ∧ NoParen inter ∧
      ParenTokensList list
  | .leaf name _ => NoParen name
/-- The discipline `ParenTokens` for every node of a chain of siblings. -/
def ParenTokensList : List Node → Prop
  | [] => True
  | aNode :: next => ParenTokens aNode ∧ ParenTokensList next
end

/-- A sample run: `RAND_MAX = 32767`, every call of `rand()` returns 20000, one
operator record and three operand tokens, cursors and trackers at zero. -/
def demoState : State :=
  ⟨32767, fun _ => 20000, 0, [⟨"(", "+", ")", 2, 2⟩], 0, ["a", "b", "c"], 0, 0, 0⟩

/-- The end-to-end input: one operator record `( + ) 2 2`, the operands `a`,
`b`, `c`, cursors and trackers at zero, any `RAND_MAX` and random sequence. -/
def endToEndState (RAND_MAX : Nat) (randSeq : Nat → Nat) : State :=
  ⟨RAND_MAX, randSeq, 0, [⟨"(", "+", ")", 2, 2⟩], 0, ["a", "b", "c"], 0, 0, 0⟩

/-- The tree that `populate` builds from `demoState`. -/
def demoTree : Node := .branch "(" "+" ")" [.leaf "a" 1, .leaf "b" 1]

/-- The state in which `populate` leaves `demoState`. -/
def demoFinal : State :=
  ⟨32767, fun _ => 20000, 3, [⟨"(", "+", ")", 2, 2⟩], 1, ["a", "b", "c"], 2, 0, 2⟩

/-- The operator file is not empty and every record has `1 <= low <= high`. -/
def PositiveOps (s : State) : Prop :=
  s.brnchFile ≠ [] ∧ ∀ e ∈ s.brnchFile, 1 ≤ e.low ∧ e.low ≤ e.high

mutual
/-- Every branch node of the tree has at least one child. -/
def BranchesNonEmpty : Node → Prop
  | .branch _ _ _ list => list ≠ [] ∧ BranchesNonEmptyList list
  | .leaf _ _ => True
/-- Every branch node in a chain of siblings has at least one child. -/
def BranchesNonEmptyList : List Node → Prop
  | [] => True
  | aNode :: next => BranchesNonEmpty aNode ∧ BranchesNonEmptyList next
end

/-- A run whose first draw gives no child: `RAND_MAX = 32767`, every call of
`rand()` returns 0, one operator record `( + ) 0 2`. -/
def childlessState : State :=
  ⟨32767, fun _ => 0, 0, [⟨"(", "+", ")", 0, 2⟩], 0, ["a", "b", "c"], 0, 0, 0⟩

/-- The state in which `populate` leaves `childlessState`. -/
def childlessFinal : State :=
  ⟨32767, fun _ => 0, 1, [⟨"(", "+", ")", 0, 2⟩], 1, ["a", "b", "c"], 0, 0, 0⟩

mutual
/-- The `name` fields of the leaves of a tree, left to right. -/
def leafNames : Node → List String
  | .branch _ _ _ list => leafNamesList list
  | .leaf name _ => [name]
/-- The `name` fields of the leaves of a chain of siblings. -/
def leafNamesList : List Node → List String
  | [] => []
  | aNode :: next => leafNames aNode ++ leafNamesList next
end

mutual
/-- The triples `(pre, inter, post)` of the branch nodes of a tree, parents
before children. -/
def branchTokens : Node → List (String × String × String)
  | .branch pre inter post list => (pre, inter, post) :: branchTokensList list
  | .leaf _ _ => []
/-- The triples `(pre, inter, post)` of the branch nodes of a chain of
siblings. -/
def branchTokensList : List Node → List (String × String × String)
  | [] => []
  | aNode :: next => branchTokens aNode ++ branchTokensList next
end

/-- A run on files with a single entry each, in which the first child slot of
the root becomes a branch: the second call of `rand()` returns 0, all others
20000. -/
def singleState : State :=
  ⟨32767, fun n => if n = 1 then 0 else 20000, 0, [⟨"(", "+", ")", 2, 2⟩], 0, ["a"], 0, 0, 0⟩

/-- The tree that `populate` builds from `singleState`. -/
def singleTree : Node :=
  .branch "(" "+" ")" [.branch "(" "+" ")" [.leaf "a" 2, .leaf "a" 2], .leaf "a" 1]

/-- The state in which `populate` leaves `singleState`. -/
def singleFinal : State :=
  ⟨32767, fun n => if n = 1 then 0 else 20000, 6, [⟨"(", "+", ")", 2, 2⟩], 1, ["a"], 1, 0, 3⟩

/-- Every record of the operator file has `0 <= low <= high <= H`. -/
def BoundedOps (H : Nat) (s : State) : Prop :=
  ∀ e ∈ s.brnchFile, 0 ≤ e.low ∧ e.low ≤ e.high ∧ e.high ≤ H

/-- Leaves that can still be appended, beyond the slots of the current loop,
once the counter has reached 20: `H - 1` pending slots on each of the
`7 - d` levels at which a branch can still be open. -/
def overshoot (H : Nat) (d : Int) : Int :=
  ((H - 1 : Nat) : Int) * ((7 - d).toNat : Int)

/-- A run with a wide branch: one operator record `( + ) 22 22`, one operand
`a`, every call of `rand()` returns 20000. -/
def wideState : State :=
  ⟨32767, fun _ => 20000, 0, [⟨"(", "+", ")", 22, 22⟩], 0, ["a"], 0, 0, 0⟩

/-- The tree that `populate` builds from `wideState`: 22 leaves under the
root. -/
def wideTree : Node := .branch "(" "+" ")" (List.replicate 22 (.leaf "a" 1))

/-- The state in which `populate` leaves `wideState`. -/
def wideFinal : State :=
  ⟨32767, fun _ => 20000, 23, [⟨"(", "+", ")", 22, 22⟩], 1, ["a"], 1, 0, 22⟩

/-- The operand tokens delivered by `n` successive reads of the operand file,
in read order. -/
def operandsRead : Nat → State → List String
  | 0, _ => []
  | n + 1, s => (readLeaf s).1 :: operandsRead n (readLeaf s).2

/-- The state after `n` successive reads of the operand file. -/
def afterReads : Nat → State → State
  | 0, s => s
  | n + 1, s => afterReads n (readLeaf s).2

/-- Two states agree on the operand file and its cursor. -/
def SameOperands (s s' : State) : Prop :=
  s'.leafFile = s.leafFile ∧ s'.leafPos = s.leafPos

mutual
/-- The fragments printed by `express`, each marked `true` when it is the name
of a leaf and `false` when it is a token of a branch. -/
def renderTagged : Node → List (Bool × String)
  | .branch pre inter post list =>
    (if suppressed pre then [] else [(false, pre)]) ++ renderTaggedList inter list ++
      (if suppressed post then [] else [(false, post)])
  | .leaf name _ => [(true, name)]
/-- The marked fragments printed by the loop over a chain of siblings. -/
def renderTaggedList (inter : String) : List Node → List (Bool × String)
  | [] => []
  | aNode :: next =>
    renderTagged aNode ++
      (if !next.isEmpty && !suppressed inter then [(false, inter)] else []) ++
      renderTaggedList inter next
end

/-! ## Basic facts about the state transformers -/

theorem SameEnv.rfl (s : State) : SameEnv s s := ⟨Eq.refl _, Eq.refl _, Eq.refl _, Eq.refl _⟩

theorem SameEnv.trans {a b c : State} (h1 : SameEnv a b) (h2 : SameEnv b c) : SameEnv a c :=
  ⟨h2.1.trans h1.1, h2.2.1.trans h1.2.1, h2.2.2.1.trans h1.2.2.1, h2.2.2.2.trans h1.2.2.2⟩

theorem ValidOps.of_sameEnv {s s' : State} (h : SameEnv s s') (hv : ValidOps s) : ValidOps s' := by
  unfold ValidOps; rw [h.2.2.1]; exact hv

theorem rand_sameEnv (s : State) : SameEnv s (rand s).2 := SameEnv.rfl s
theorem rand_theDepth (s : State) : (rand s).2.theDepth = s.theDepth := Eq.refl _
theorem rand_nodeCount (s : State) : (rand s).2.nodeCount = s.nodeCount := Eq.refl _

theorem readBranch_sameEnv (s : State) : SameEnv s (readBranch s).2 := by
  unfold readBranch; split
  · exact SameEnv.rfl s
  · split <;> exact SameEnv.rfl s

theorem readBranch_theDepth (s : State) : (readBranch s).2.theDepth = s.theDepth := by
  unfold readBranch; split
  · rfl
  · split <;> rfl

theorem readBranch_nodeCount (s : State) : (readBranch s).2.nodeCount = s.nodeCount := by
  unfold readBranch; split
  · rfl
  · split <;> rfl

theorem readLeaf_sameEnv (s : State) : SameEnv s (readLeaf s).2 := by
  unfold readLeaf; split
  · exact SameEnv.rfl s
  · split <;> exact SameEnv.rfl s

theorem readLeaf_theDepth (s : State) : (readLeaf s).2.theDepth = s.theDepth := by
  unfold readLeaf; split
  · rfl
  · split <;> rfl

theorem readLeaf_nodeCount (s : State) : (readLeaf s).2.nodeCount = s.nodeCount := by
  unfold readLeaf; split
  · rfl
  · split <;> rfl

/-- The record delivered by `readBranch` respects `0 <= low <= high` when every
record of the file does (the all-zero record of an empty file included). -/
theorem readBranch_valid (s : State) (hv : ValidOps s) :
    0 ≤ (readBranch s).1.low ∧ (readBranch s).1.low ≤ (readBranch s).1.high := by
  unfold readBranch; split
  · next e he => exact hv e (List.get?_mem he)
  · split
    · next e he => exact hv e (List.mem_of_mem_head? he)
    · simp

/-- With `0 <= low <= high` the modulus is positive and `numOps` lies in
`[low, high]`. -/
theorem numOps_bounds (e : OpEntry) (r : Nat) (h1 : e.low ≤ e.high) :
    e.high - e.low + 1 ≠ 0 ∧ e.low ≤ numOps e r ∧ numOps e r ≤ e.high := by
  have hm : 0 < e.high - e.low + 1 := by omega
  have hr : (0 : Int) ≤ r := Int.ofNat_nonneg r
  have h2 : 0 ≤ Int.tmod r (e.high - e.low + 1) := Int.tmod_nonneg _ hr
  have h3 : Int.tmod r (e.high - e.low + 1) < e.high - e.low + 1 := Int.tmod_lt_of_pos _ hm
  unfold numOps
  exact ⟨by omega, by omega, by omega⟩

theorem chooseType_branch {s : State} {r : Nat} (h : chooseType s r = .branch) :
    r < s.RAND_MAX / 2 ∧ s.nodeCount < 20 ∧ s.theDepth < 7 := by
  unfold chooseType at h
  split at h
  · assumption
  · cases h

/-! ## Rule induction for `populate` -/

/-- Loop rule: a relation `QL` that holds for the empty loop and is carried
through one iteration holds for every result of `childLoop`. -/
theorem childLoop_rule {pop : nodeType → State → Except Fault (Node × State)}
    (Q : nodeType → State → Node → State → Prop)
    (QL : Nat → State → List Node → State → Prop)
    (hpop : ∀ ty s c s', pop ty s = .ok (c, s') → Q ty s c s')
    (hnil : ∀ s, QL 0 s [] s)
    (hcons : ∀ k s c s2 cs s3, Q (chooseType (rand s).2 (rand s).1) (rand s).2 c s2 →
      QL k s2 cs s3 → QL (k + 1) s (c :: cs) s3) :
    ∀ k s cs s', childLoop pop k s = .ok (cs, s') → QL k s cs s' := by
  intro k
  induction k with
  | zero =>
    intro s cs s' h
    simp only [childLoop, Except.ok.injEq, Prod.mk.injEq] at h
    obtain ⟨h1, h2⟩ := h
    subst h1; subst h2
    exact hnil s
  | succ k ih =>
    intro s cs s' h
    simp only [childLoop] at h
    split at h
    · cases h
    · next c s2 hc =>
      split at h
      · cases h
      · next cs2 s3 hl =>
        simp only [Except.ok.injEq, Prod.mk.injEq] at h
        obtain ⟨h1, h2⟩ := h
        subst h1; subst h2
        exact hcons k s c s2 cs2 s3 (hpop _ _ _ _ hc) (ih _ _ _ hl)

/-- Rule induction over the recursion of `populate`: a relation `Q` between
the kind asked for, the state before, the node built and the state after holds
of every successful run as soon as it holds for a leaf and is carried through
the child loop and the branch case. -/
theorem populateFuel_rule
    (Q : nodeType → State → Node → State → Prop)
    (QL : Nat → State → List Node → State → Prop)
    (hleaf : ∀ s, Q .leaf s (.leaf (readLeaf (countLeaf s)).1 s.theDepth) (readLeaf (countLeaf s)).2)
    (hnil : ∀ s, QL 0 s [] s)
    (hcons : ∀ k s c s2 cs s3, Q (chooseType (rand s).2 (rand s).1) (rand s).2 c s2 →
      QL k s2 cs s3 → QL (k + 1) s (c :: cs) s3)
    (hbranch : ∀ s cs s4,
      ((readBranch (enterBranch s)).1.high - (readBranch (enterBranch s)).1.low + 1 ≠ 0) →
      0 ≤ numOps (readBranch (enterBranch s)).1 (rand (readBranch (enterBranch s)).2).1 →
      QL (numOps (readBranch (enterBranch s)).1 (rand (readBranch (enterBranch s)).2).1).toNat
        (rand (readBranch (enterBranch s)).2).2 cs s4 →
      Q .branch s (.branch (readBranch (enterBranch s)).1.pre (readBranch (enterBranch s)).1.inter
        (readBranch (enterBranch s)).1.post cs) (leaveBranch s4)) :
    ∀ fuel ty s t s', populateFuel fuel ty s = .ok (t, s') → Q ty s t s' := by
  intro fuel
  induction fuel with
  | zero =>
    intro ty s t s' h
    cases ty with
    | leaf =>
      simp only [populateFuel, Except.ok.injEq, Prod.mk.injEq] at h
      obtain ⟨h1, h2⟩ := h
      subst h1; subst h2
      exact hleaf s
    | branch => simp [populateFuel] at h
  | succ fuel ih =>
    intro ty s t s' h
    cases ty with
    | leaf =>
      simp only [populateFuel, Except.ok.injEq, Prod.mk.injEq] at h
      obtain ⟨h1, h2⟩ := h
      subst h1; subst h2
      exact hleaf s
    | branch =>
      simp only [populateFuel] at h
      split at h
      · cases h
      · next hm =>
        split at h
        · cases h
        · next hn =>
          split at h
          · cases h
          · next cs s4 hl =>
            simp only [Except.ok.injEq, Prod.mk.injEq] at h
            obtain ⟨h1, h2⟩ := h
            subst h1; subst h2
            exact hbranch s cs s4 hm (not_lt.mp hn)
              (childLoop_rule Q QL ih hnil hcons _ _ _ _ hl)

/-! ## Frame and totality of `populate` -/

theorem enterBranch_sameEnv (s : State) : SameEnv s (enterBranch s) := SameEnv.rfl s
theorem leaveBranch_sameEnv (s : State) : SameEnv s (leaveBranch s) := SameEnv.rfl s
theorem countLeaf_sameEnv (s : State) : SameEnv s (countLeaf s) := SameEnv.rfl s

/-- The state in which the child loop of a branch starts differs from the state
at entry only by the depth increment and the two cursors. -/
theorem branchStart_facts (s : State) :
    SameEnv s (rand (readBranch (enterBranch s)).2).2 ∧
    (rand (readBranch (enterBranch s)).2).2.theDepth = s.theDepth + 1 ∧
    (rand (readBranch (enterBranch s)).2).2.nodeCount = s.nodeCount := by
  refine ⟨?_, ?_, ?_⟩
  · exact (enterBranch_sameEnv s).trans ((readBranch_sameEnv _).trans (rand_sameEnv _))
  · rw [rand_theDepth, readBranch_theDepth]; rfl
  · rw [rand_nodeCount, readBranch_nodeCount]; rfl

/-- What every successful run of `populate` leaves behind: the environment and
the depth tracker are unchanged, the leaf counter has grown by the number of
leaves of the node built, and the node has the kind asked for. -/
theorem populateFuel_frame (fuel : Nat) (ty : nodeType) (s : State) (t : Node) (s' : State)
    (h : populateFuel fuel ty s = .ok (t, s')) :
    SameEnv s s' ∧ s'.theDepth = s.theDepth ∧
      s'.nodeCount = s.nodeCount + countLeaves t ∧ t.theType = ty := by
  refine populateFuel_rule
    (fun ty s t s' => SameEnv s s' ∧ s'.theDepth = s.theDepth ∧
      s'.nodeCount = s.nodeCount + countLeaves t ∧ t.theType = ty)
    (fun k s cs s' => SameEnv s s' ∧ s'.theDepth = s.theDepth ∧
      s'.nodeCount = s.nodeCount + countLeavesList cs ∧ cs.length = k)
    ?_ ?_ ?_ ?_ fuel ty s t s' h
  · intro s
    refine ⟨(countLeaf_sameEnv s).trans (readLeaf_sameEnv _), ?_, ?_, rfl⟩
    · rw [readLeaf_theDepth]; rfl
    · rw [readLeaf_nodeCount]; simp [countLeaf, countLeaves]
  · intro s
    exact ⟨SameEnv.rfl s, rfl, by simp [countLeavesList], rfl⟩
  · intro k s c s2 cs s3 hc hl
    obtain ⟨e1, d1, n1, _⟩ := hc
    obtain ⟨e2, d2, n2, l2⟩ := hl
    refine ⟨(rand_sameEnv s).trans (e1.trans e2), ?_, ?_, ?_⟩
    · rw [d2, d1, rand_theDepth]
    · rw [n2, n1, rand_nodeCount]; simp [countLeavesList]; omega
    · simp [l2]
  · intro s cs s4 _ _ hl
    obtain ⟨e2, d2, n2, _⟩ := hl
    obtain ⟨e0, d0, n0⟩ := branchStart_facts s
    refine ⟨e0.trans (e2.trans (leaveBranch_sameEnv s4)), ?_, ?_, rfl⟩
    · show s4.theDepth - 1 = s.theDepth
      rw [d2, d0]; omega
    · show s4.nodeCount = s.nodeCount + countLeaves (Node.branch _ _ _ cs)
      rw [n2, n0]; simp [countLeaves]

/-- The child loop succeeds when every call of `pop` it makes does. -/
theorem childLoop_total {pop : nodeType → State → Except Fault (Node × State)} (D : Int)
    (hframe : ∀ ty s c s', pop ty s = .ok (c, s') → SameEnv s s' ∧ s'.theDepth = s.theDepth)
    (htotal : ∀ ty s, ValidOps s → s.theDepth = D → (ty = .branch → D < 7) →
      ∃ c s', pop ty s = .ok (c, s')) :
    ∀ k s, ValidOps s → s.theDepth = D → ∃ cs s', childLoop pop k s = .ok (cs, s') := by
  intro k
  induction k with
  | zero => intro s _ _; exact ⟨[], s, rfl⟩
  | succ k ih =>
    intro s hv hd
    have hv1 : ValidOps (rand s).2 := hv.of_sameEnv (rand_sameEnv s)
    have hd1 : (rand s).2.theDepth = D := by rw [rand_theDepth]; exact hd
    obtain ⟨c, s2, hc⟩ := htotal (chooseType (rand s).2 (rand s).1) (rand s).2 hv1 hd1
      (fun hb => by have := (chooseType_branch hb).2.2; omega)
    obtain ⟨e2, d2⟩ := hframe _ _ _ _ hc
    obtain ⟨cs, s3, hl⟩ := ih s2 (hv1.of_sameEnv e2) (by rw [d2]; exact hd1)
    exact ⟨c :: cs, s3, by simp only [childLoop, hc, hl]⟩

/-- With operator records satisfying `0 <= low <= high`, `populate` returns a
node as soon as the nesting bound covers the distance to the depth cap. -/
theorem populateFuel_total :
    ∀ (fuel : Nat) (ty : nodeType) (s : State), ValidOps s →
      (ty = .branch → 7 - s.theDepth ≤ fuel ∧ 1 ≤ fuel) →
      ∃ t s', populateFuel fuel ty s = .ok (t, s') := by
  intro fuel
  induction fuel with
  | zero =>
    intro ty s _ hf
    cases ty with
    | leaf => exact ⟨_, _, rfl⟩
    | branch => have := (hf rfl).2; omega
  | succ fuel ih =>
    intro ty s hv hf
    cases ty with
    | leaf => exact ⟨_, _, rfl⟩
    | branch =>
      obtain ⟨e0, d0, _⟩ := branchStart_facts s
      have hve : ValidOps (enterBranch s) := hv.of_sameEnv (enterBranch_sameEnv s)
      obtain ⟨hlow, hhigh⟩ := readBranch_valid (enterBranch s) hve
      obtain ⟨hm, hlo, _⟩ := numOps_bounds (readBranch (enterBranch s)).1
        (rand (readBranch (enterBranch s)).2).1 hhigh
      have hn : ¬ numOps (readBranch (enterBranch s)).1
          (rand (readBranch (enterBranch s)).2).1 < 0 := by omega
      have hfuel := (hf rfl).1
      obtain ⟨cs, s4, hl⟩ := childLoop_total (s.theDepth + 1)
        (fun ty s c s' h => ⟨(populateFuel_frame fuel ty s c s' h).1,
          (populateFuel_frame fuel ty s c s' h).2.1⟩)
        (fun ty s1 hv1 hd1 hb => ih ty s1 hv1 (fun hty => by have := hb hty; omega))
        (numOps (readBranch (enterBranch s)).1 (rand (readBranch (enterBranch s)).2).1).toNat
        (rand (readBranch (enterBranch s)).2).2 (hv.of_sameEnv e0) d0
      refine ⟨.branch (readBranch (enterBranch s)).1.pre (readBranch (enterBranch s)).1.inter
        (readBranch (enterBranch s)).1.post cs, leaveBranch s4, ?_⟩
      simp only [populateFuel, hm, hn, hl, if_false]

/-- The function `populate` returns a node for every random sequence when the
operator records satisfy `0 <= low <= high`. -/
theorem populate_total (ty : nodeType) (s : State) (hv : ValidOps s) :
    ∃ t s', populate ty s = .ok (t, s') :=
  populateFuel_total (budget s) ty s hv (fun _ => by unfold budget; omega)

theorem populate_frame (ty : nodeType) (s : State) (t : Node) (s' : State)
    (h : populate ty s = .ok (t, s')) :
    SameEnv s s' ∧ s'.theDepth = s.theDepth ∧
      s'.nodeCount = s.nodeCount + countLeaves t ∧ t.theType = ty :=
  populateFuel_frame (budget s) ty s t s' h

/-! ## Sample run -/

theorem demo_validOps : ValidOps demoState := by
  intro e he
  simp only [demoState, List.mem_singleton] at he
  subst he
  decide

theorem demo_populate : populate .branch demoState = .ok (demoTree, demoFinal) := rfl

/-! ## Leaf counter -/

/-- Claim C1: populating an empty root branch with the leaf counter at 0, from
operator records with `0 <= low <= high` and any random sequence, returns a
tree, and the final leaf counter equals the number of leaves counted by the
separate traversal `countLeaves`. -/
theorem populate_nodeCount_eq_countLeaves (s : State) (hv : ValidOps s)
    (h0 : s.nodeCount = 0) :
    ∃ t s', populate .branch s = .ok (t, s') ∧ s'.nodeCount = countLeaves t := by
  obtain ⟨t, s', h⟩ := populate_total .branch s hv
  refine ⟨t, s', h, ?_⟩
  have := (populate_frame .branch s t s' h).2.2.1
  omega

theorem populate_nodeCount_eq_countLeaves_witness :
    ValidOps demoState ∧ demoState.nodeCount = 0 ∧
      ∃ t s', populate .branch demoState = .ok (t, s') ∧ s'.nodeCount = countLeaves t :=
  ⟨demo_validOps, rfl, populate_nodeCount_eq_countLeaves demoState demo_validOps rfl⟩

/-! ## Induction over trees and the equations of `express` -/

/-- Structural induction over a tree together with its chains of siblings. -/
theorem Node.induct (P : Node → Prop) (PL : List Node → Prop)
    (hbranch : ∀ pre inter post list, PL list → P (.branch pre inter post list))
    (hleaf : ∀ name myDepth, P (.leaf name myDepth))
    (hnil : PL [])
    (hcons : ∀ aNode next, P aNode → PL next → PL (aNode :: next)) :
    ∀ t, P t := by
  intro t
  exact Node.rec (motive_1 := P) (motive_2 := PL)
    (fun pre inter post list ih => hbranch pre inter post list ih)
    (fun name myDepth => hleaf name myDepth)
    hnil
    (fun aNode next ih1 ih2 => hcons aNode next ih1 ih2) t

/-- The same induction, concluding for chains of siblings. -/
theorem Node.induct_list (P : Node → Prop) (PL : List Node → Prop)
    (hbranch : ∀ pre inter post list, PL list → P (.branch pre inter post list))
    (hleaf : ∀ name myDepth, P (.leaf name myDepth))
    (hnil : PL [])
    (hcons : ∀ aNode next, P aNode → PL next → PL (aNode :: next)) :
    ∀ l, PL l := by
  intro l
  induction l with
  | nil => exact hnil
  | cons a l ih => exact hcons a l (Node.induct P PL hbranch hleaf hnil hcons a) ih

theorem express_leaf (name : String) (myDepth m : Int) :
    express (.leaf name myDepth) m = ([name], if myDepth > m then myDepth else m) := by
  simp [express]

theorem express_branch_fst (pre inter post : String) (list : List Node) (m : Int) :
    (express (.branch pre inter post list) m).1 =
      (if suppressed pre then [] else [pre]) ++ (expressList inter list m).1 ++
        (if suppressed post then [] else [post]) := by
  simp [express]

theorem express_branch_snd (pre inter post : String) (list : List Node) (m : Int) :
    (express (.branch pre inter post list) m).2 = (expressList inter list m).2 := by
  simp [express]

theorem expressList_nil (inter : String) (m : Int) : expressList inter [] m = ([], m) := by
  simp [expressList]

theorem expressList_cons_fst (inter : String) (aNode : Node) (next : List Node) (m : Int) :
    (expressList inter (aNode :: next) m).1 =
      (express aNode m).1 ++
        (if !next.isEmpty && !suppressed inter then [inter] else []) ++
        (expressList inter next (express aNode m).2).1 := by
  simp [expressList]

theorem expressList_cons_snd (inter : String) (aNode : Node) (next : List Node) (m : Int) :
    (expressList inter (aNode :: next) m).2 =
      (expressList inter next (express aNode m).2).2 := by
  simp [expressList]

/-! ## Depth stored on the leaves -/

theorem leafPaths_fst (t : Node) : ∀ k, (leafPaths k t).map Prod.fst = leafDepths t := by
  refine Node.induct (fun t => ∀ k, (leafPaths k t).map Prod.fst = leafDepths t)
    (fun l => ∀ k, (leafPathsList k l).map Prod.fst = leafDepthsList l) ?_ ?_ ?_ ?_ t
  · intro pre inter post list ih k
    simp only [leafPaths, leafDepths]; exact ih (k + 1)
  · intro name myDepth k
    simp [leafPaths, leafDepths]
  · intro k; simp [leafPathsList, leafDepthsList]
  · intro aNode next ih1 ih2 k
    simp only [leafPathsList, leafDepthsList, List.map_append, ih1 k, ih2 k]

/-- Every successful run of `populate` stores on each leaf the depth tracker at
entry plus the number of branch nodes between the node built and that leaf. -/
theorem populateFuel_depths (fuel : Nat) (ty : nodeType) (s : State) (t : Node) (s' : State)
    (h : populateFuel fuel ty s = .ok (t, s')) :
    ∀ (k : Nat) (p : Int × Nat), p ∈ leafPaths k t → p.1 + k = s.theDepth + p.2 := by
  refine (populateFuel_rule
    (fun _ s t s' => s'.theDepth = s.theDepth ∧
      ∀ (k : Nat) (p : Int × Nat), p ∈ leafPaths k t → p.1 + k = s.theDepth + p.2)
    (fun _ s cs s' => s'.theDepth = s.theDepth ∧
      ∀ (k : Nat) (p : Int × Nat), p ∈ leafPathsList k cs → p.1 + k = s.theDepth + p.2)
    ?_ ?_ ?_ ?_ fuel ty s t s' h).2
  · intro s
    refine ⟨by rw [readLeaf_theDepth]; rfl, ?_⟩
    intro k p hp
    simp only [leafPaths, List.mem_singleton] at hp
    subst hp
    simp
  · intro s
    exact ⟨rfl, by intro k p hp; simp [leafPathsList] at hp⟩
  · intro k s c s2 cs s3 hc hl
    obtain ⟨d1, q1⟩ := hc
    obtain ⟨d2, q2⟩ := hl
    rw [rand_theDepth] at d1 q1
    refine ⟨by rw [d2, d1], ?_⟩
    intro k p hp
    simp only [leafPathsList, List.mem_append] at hp
    rcases hp with hp | hp
    · exact q1 k p hp
    · have := q2 k p hp
      rw [d1] at this
      exact this
  · intro s cs s4 _ _ hl
    obtain ⟨d2, q2⟩ := hl
    obtain ⟨_, d0, _⟩ := branchStart_facts s
    refine ⟨?_, ?_⟩
    · show s4.theDepth - 1 = s.theDepth
      rw [d2, d0]; omega
    · intro k p hp
      simp only [leafPaths] at hp
      have := q2 (k + 1) p hp
      rw [d0] at this
      push_cast at this
      omega

/-! ## The depth reported by `express` -/

theorem express_snd_eq_foldl (t : Node) :
    ∀ m, (express t m).2 = List.foldl max m (leafDepths t) := by
  refine Node.induct (fun t => ∀ m, (express t m).2 = List.foldl max m (leafDepths t))
    (fun l => ∀ (inter : String) m,
      (expressList inter l m).2 = List.foldl max m (leafDepthsList l)) ?_ ?_ ?_ ?_ t
  · intro pre inter post list ih m
    rw [express_branch_snd, ih inter m]; simp [leafDepths]
  · intro name myDepth m
    rw [express_leaf]
    simp only [leafDepths, List.foldl_cons, List.foldl_nil]
    split <;> omega
  · intro inter m
    simp [expressList_nil, leafDepthsList]
  · intro aNode next ih1 ih2 inter m
    rw [expressList_cons_snd, ih2 inter, ih1 m]
    simp [leafDepthsList, List.foldl_append]

theorem foldl_max_ge (l : List Int) : ∀ m, m ≤ List.foldl max m l := by
  induction l with
  | nil => intro m; simp
  | cons a l ih =>
    intro m
    simp only [List.foldl_cons]
    exact le_trans (le_max_left m a) (ih _)

theorem foldl_max_ge_mem (l : List Int) : ∀ m, ∀ d ∈ l, d ≤ List.foldl max m l := by
  induction l with
  | nil => intro m d hd; simp at hd
  | cons a l ih =>
    intro m d hd
    simp only [List.foldl_cons]
    rcases List.mem_cons.mp hd with hd | hd
    · subst hd
      exact le_trans (le_max_right m d) (foldl_max_ge l _)
    · exact ih _ d hd

theorem foldl_max_mem (l : List Int) : ∀ m, List.foldl max m l = m ∨ List.foldl max m l ∈ l := by
  induction l with
  | nil => intro m; simp
  | cons a l ih =>
    intro m
    simp only [List.foldl_cons]
    rcases ih (max m a) with h | h
    · rw [h]
      rcases max_choice m a with h' | h'
      · left; exact h'
      · right; rw [h']; exact List.mem_cons_self _ _
    · right; exact List.mem_cons_of_mem _ h

/-- Claim C2: for every tree and every start value `m` of the tracker,
`express` leaves the tracker equal to the maximum of `m` and the `myDepth`
values of all leaves; and for a tree populated from depth tracker 0 that has a
leaf, the value reported from `m = 0` is the largest `myDepth` in the tree. -/
theorem express_maxDepth :
    (∀ (t : Node) (m : Int), (express t m).2 = List.foldl max m (leafDepths t)) ∧
    (∀ (s : State) (t : Node) (s' : State), populate .branch s = .ok (t, s') →
      s.theDepth = 0 → leafDepths t ≠ [] →
      (express t 0).2 ∈ leafDepths t ∧ ∀ d ∈ leafDepths t, d ≤ (express t 0).2) := by
  refine ⟨fun t m => express_snd_eq_foldl t m, ?_⟩
  intro s t s' h h0 hne
  rw [express_snd_eq_foldl]
  refine ⟨?_, foldl_max_ge_mem _ 0⟩
  rcases foldl_max_mem (leafDepths t) 0 with hz | hm
  · obtain ⟨d, hd⟩ := List.exists_mem_of_ne_nil _ hne
    have hle := foldl_max_ge_mem (leafDepths t) 0 d hd
    have hnn : 0 ≤ d := by
      rw [← leafPaths_fst t 0] at hd
      obtain ⟨p, hp, rfl⟩ := List.mem_map.mp hd
      have := populateFuel_depths _ _ _ _ _ h 0 p hp
      rw [h0] at this
      omega
    have : d = List.foldl max 0 (leafDepths t) := by omega
    rw [← this]; exact hd
  · exact hm

theorem express_maxDepth_witness :
    populate .branch demoState = .ok (demoTree, demoFinal) ∧ demoState.theDepth = 0 ∧
      leafDepths demoTree ≠ [] ∧ (express demoTree 0).2 = 1 ∧
      ((express demoTree 0).2 ∈ leafDepths demoTree ∧
        ∀ d ∈ leafDepths demoTree, d ≤ (express demoTree 0).2) :=
  ⟨demo_populate, rfl, by decide, by decide,
    express_maxDepth.2 demoState demoTree demoFinal demo_populate rfl (by decide)⟩

/-! ## The fragments printed by `express` -/

theorem intercalate_nil (sep : List String) : List.intercalate sep [] = [] := by
  simp [List.intercalate, List.intersperse]

theorem intercalate_singleton (sep a : List String) : List.intercalate sep [a] = a := by
  simp [List.intercalate, List.intersperse]

theorem intercalate_cons_cons (sep a b : List String) (l : List (List String)) :
    List.intercalate sep (a :: b :: l) = a ++ sep ++ List.intercalate sep (b :: l) := by
  simp [List.intercalate, List.intersperse]

theorem intercalate_empty_sep (l : List (List String)) :
    List.intercalate [] l = l.flatten := by
  induction l with
  | nil => simp [intercalate_nil]
  | cons a l ih =>
    cases l with
    | nil => simp [intercalate_singleton]
    | cons b l => rw [intercalate_cons_cons, ih]; simp

/-- The fragments printed do not depend on the start value of the tracker. -/
theorem express_fst_indep (t : Node) : ∀ m m', (express t m).1 = (express t m').1 := by
  refine Node.induct (fun t => ∀ m m', (express t m).1 = (express t m').1)
    (fun l => ∀ (inter : String) m m', (expressList inter l m).1 = (expressList inter l m').1)
    ?_ ?_ ?_ ?_ t
  · intro pre inter post list ih m m'
    rw [express_branch_fst, express_branch_fst, ih inter m m']
  · intro name myDepth m m'
    simp [express_leaf]
  · intro inter m m'
    simp [expressList_nil]
  · intro aNode next ih1 ih2 inter m m'
    rw [expressList_cons_fst, expressList_cons_fst, ih1 m m',
      ih2 inter (express aNode m).2 (express aNode m').2]

/-- The loop over the children prints their renderings in chain order, with
`inter` between consecutive children unless its first character is a full
stop. -/
theorem expressList_fst (inter : String) (m' : Int) (l : List Node) :
    ∀ m, (expressList inter l m).1 =
      List.intercalate (if suppressed inter then [] else [inter])
        (l.map (fun c => (express c m').1)) := by
  induction l with
  | nil => intro m; simp [expressList_nil, intercalate_nil]
  | cons a l ih =>
    intro m
    rw [expressList_cons_fst, ih, express_fst_indep a m m']
    cases l with
    | nil => simp [intercalate_nil, intercalate_singleton]
    | cons b l =>
      simp only [List.map_cons, intercalate_cons_cons, List.isEmpty_cons, Bool.not_false,
        Bool.true_and]
      cases suppressed inter <;> simp

/-- The fragments of a branch: `pre`, the children separated by `inter`, `post`,
each token dropped when `suppressed`. -/
theorem express_branch_fragments (pre inter post : String) (list : List Node) (m m' : Int) :
    (express (.branch pre inter post list) m).1 =
      (if suppressed pre then [] else [pre]) ++
        List.intercalate (if suppressed inter then [] else [inter])
          (list.map (fun c => (express c m').1)) ++
        (if suppressed post then [] else [post]) := by
  rw [express_branch_fst, expressList_fst inter m']

theorem suppressed_iff (tok : String) : suppressed tok = true ↔ tok.data.head? = some '.' := by
  unfold suppressed
  cases tok.data with
  | nil => simp
  | cons c l => simp

/-! ## Balanced parentheses -/

theorem outputChars_nil : outputChars [] = [] := by simp [outputChars]

theorem outputChars_append (a b : List String) :
    outputChars (a ++ b) = outputChars a ++ outputChars b := by
  simp [outputChars]

theorem outputChars_singleton (tok : String) : outputChars [tok] = tok.data := by
  simp [outputChars]

theorem parenBalanced_nil : ParenBalanced [] := by
  constructor
  · intro n; simp
  · rfl

theorem parenBalanced_append {a b : List Char} (ha : ParenBalanced a) (hb : ParenBalanced b) :
    ParenBalanced (a ++ b) := by
  constructor
  · intro n
    rw [List.take_append_eq_append_take, List.count_append, List.count_append]
    have h1 := ha.1 n
    have h2 := hb.1 (n - a.length)
    omega
  · rw [List.count_append, List.count_append, ha.2, hb.2]

theorem parenBalanced_of_noParen {l : List Char} (h1 : '(' ∉ l) (h2 : ')' ∉ l) :
    ParenBalanced l := by
  constructor
  · intro n
    have : List.count ')' (l.take n) = 0 :=
      List.count_eq_zero.mpr (fun h => h2 (List.mem_of_mem_take h))
    omega
  · rw [List.count_eq_zero.mpr h1, List.count_eq_zero.mpr h2]

theorem parenBalanced_wrap {l : List Char} (h : ParenBalanced l) :
    ParenBalanced ('(' :: (l ++ [')'])) := by
  constructor
  · intro n
    cases n with
    | zero => simp
    | succ n =>
      rw [List.take_succ_cons, List.take_append_eq_append_take]
      have h1 := h.1 n
      have h2 : List.count ')' (List.take (n - l.length) [')']) ≤ 1 :=
        le_trans (List.count_le_length _ _) (List.length_take_le' _ _)
      simp only [List.count_cons, List.count_append]
      simp
      omega
  · have h2 := h.2
    simp only [List.count_cons, List.count_append]
    simp
    omega

theorem express_balanced (t : Node) :
    ParenTokens t → ∀ m, ParenBalanced (outputChars (express t m).1) := by
  refine Node.induct
    (fun t => ParenTokens t → ∀ m, ParenBalanced (outputChars (express t m).1))
    (fun l => ParenTokensList l → ∀ (inter : String) m, NoParen inter →
      ParenBalanced (outputChars (expressList inter l m).1)) ?_ ?_ ?_ ?_ t
  · intro pre inter post list ih ht m
    simp only [ParenTokens] at ht
    obtain ⟨hpp, hi, hl⟩ := ht
    have hb := ih hl inter m hi
    rw [express_branch_fst]
    rcases hpp with ⟨h1, h2⟩ | ⟨h1, h2⟩
    · subst h1; subst h2
      have e1 : suppressed "(" = false := by decide
      have e2 : suppressed ")" = false := by decide
      simp only [e1, e2, Bool.false_eq_true, if_false, outputChars_append,
        outputChars_singleton]
      exact parenBalanced_wrap hb
    · subst h1; subst h2
      have e1 : suppressed "." = true := by decide
      simp only [e1, if_true, List.nil_append, List.append_nil]
      exact hb
  · intro name myDepth ht m
    simp only [ParenTokens] at ht
    rw [express_leaf]
    simp only [outputChars_singleton]
    exact parenBalanced_of_noParen ht.1 ht.2
  · intro _ inter m _
    rw [expressList_nil]
    simp only [outputChars_nil]
    exact parenBalanced_nil
  · intro aNode next ih1 ih2 hl inter m hi
    simp only [ParenTokensList] at hl
    rw [expressList_cons_fst, outputChars_append, outputChars_append]
    refine parenBalanced_append (parenBalanced_append (ih1 hl.1 m) ?_) (ih2 hl.2 inter _ hi)
    split
    · rw [outputChars_singleton]; exact parenBalanced_of_noParen hi.1 hi.2
    · rw [outputChars_nil]; exact parenBalanced_nil

theorem demoTree_parenTokens : ParenTokens demoTree := by
  simp [demoTree, ParenTokens, ParenTokensList, NoParen]

/-- Claim C3: when every branch has `pre`/`post` equal to `(`/`)` or both equal
to the sentinel `.`, and no `inter` token or leaf name contains a parenthesis,
the characters printed by `express` are parenthesis-balanced: no initial segment
has more `)` than `(`, and the totals agree. -/
theorem express_paren_balanced (t : Node) (m : Int) (ht : ParenTokens t) :
    ParenBalanced (outputChars (express t m).1) :=
  express_balanced t ht m

theorem express_paren_balanced_witness :
    ParenTokens demoTree ∧ ParenBalanced (outputChars (express demoTree 0).1) :=
  ⟨demoTree_parenTokens, express_paren_balanced demoTree 0 demoTree_parenTokens⟩

/-! ## Token placement and sentinel suppression -/

theorem suppressed_eq_false_iff (tok : String) :
    suppressed tok = false ↔ tok.data.head? ≠ some '.' := by
  have h := suppressed_iff tok
  constructor
  · intro hf hd
    rw [h.mpr hd] at hf
    cases hf
  · intro hn
    cases hs : suppressed tok with
    | false => rfl
    | true => exact absurd (h.mp hs) hn

theorem suppressed_ite (tok : String) :
    (if suppressed tok = true then ([] : List String) else [tok]) =
      if tok.data.head? = some '.' then [] else [tok] := by
  by_cases h : suppressed tok = true
  · rw [if_pos h, if_pos ((suppressed_iff tok).mp h)]
  · rw [if_neg h, if_neg (fun h' => h ((suppressed_iff tok).mpr h'))]

/-- Counterexample to claim C4 as stated: the separator `.+` differs from the
sentinel `.`, as do `(` and `)`, yet `express` prints no separator between the
two children. -/
theorem express_separator_dropped :
    "(" ≠ "." ∧ ".+" ≠ "." ∧ ")" ≠ "." ∧
      (express (.branch "(" ".+" ")" [.leaf "a" 1, .leaf "b" 1]) 0).1 = ["(", "a", "b", ")"] ∧
      (express (.branch "(" ".+" ")" [.leaf "a" 1, .leaf "b" 1]) 0).1 ≠
        ["("] ++ List.intercalate [".+"]
          ([Node.leaf "a" 1, Node.leaf "b" 1].map (fun c => (express c 0).1)) ++ [")"] := by
  decide

/-- Claim C4, amended: for a branch with children `c1..cn` (`n >= 1`) whose
`pre`, `inter` and `post` do not begin with a full stop, `express` prints `pre`,
the rendering of `c1`, `inter`, the rendering of `c2`, ..., the rendering of
`cn`, `post`: the children in chain order, `inter` between consecutive children
only (`n - 1` times) and never after the last one. -/
theorem express_branch_layout (pre inter post : String) (c : Node) (cs : List Node)
    (m m' : Int) (hpre : pre.data.head? ≠ some '.') (hinter : inter.data.head? ≠ some '.')
    (hpost : post.data.head? ≠ some '.') :
    (express (.branch pre inter post (c :: cs)) m).1 =
      [pre] ++ List.intercalate [inter] ((c :: cs).map (fun x => (express x m').1)) ++
        [post] := by
  rw [express_branch_fragments pre inter post (c :: cs) m m',
    (suppressed_eq_false_iff pre).mpr hpre, (suppressed_eq_false_iff inter).mpr hinter,
    (suppressed_eq_false_iff post).mpr hpost]
  simp

theorem express_branch_layout_witness :
    "(".data.head? ≠ some '.' ∧ "+".data.head? ≠ some '.' ∧ ")".data.head? ≠ some '.' ∧
      (express (.branch "(" "+" ")" [.leaf "a" 1, .leaf "b" 1]) 0).1 =
        ["("] ++ List.intercalate ["+"]
          ([Node.leaf "a" 1, Node.leaf "b" 1].map (fun x => (express x 0).1)) ++ [")"] :=
  ⟨by decide, by decide, by decide,
    express_branch_layout "(" "+" ")" (.leaf "a" 1) [.leaf "b" 1] 0 0
      (by decide) (by decide) (by decide)⟩

/-- Counterexample to claim C5 as stated: the tokens `.5`, `.x` and `...` all
differ from the sentinel `.`, yet `express` prints none of them. -/
theorem express_dotted_tokens_dropped :
    ".5" ≠ "." ∧ ".x" ≠ "." ∧ "..." ≠ "." ∧
      (express (.branch ".5" ".x" "..." [.leaf "a" 1, .leaf "b" 1]) 0).1 = ["a", "b"] := by
  decide

/-- Claim C5, amended: `express` prints the `pre` token of a branch if and only
if its first character is not a full stop, and likewise `inter` (between
consecutive children) and `post`; a token is dropped exactly when it begins
with `.`, the sentinel `.` included. -/
theorem express_token_emitted_iff (pre inter post : String) (list : List Node) (m m' : Int) :
    (express (.branch pre inter post list) m).1 =
      (if pre.data.head? = some '.' then [] else [pre]) ++
        List.intercalate (if inter.data.head? = some '.' then [] else [inter])
          (list.map (fun c => (express c m').1)) ++
        (if post.data.head? = some '.' then [] else [post]) := by
  rw [express_branch_fragments pre inter post list m m', suppressed_ite pre,
    suppressed_ite inter, suppressed_ite post]

/-- Claim C6: a branch whose `pre`, `inter` and `post` are all the sentinel `.`
prints exactly the fragments of its children, in chain order, and nothing
else. -/
theorem express_all_sentinel (list : List Node) (m m' : Int) :
    (express (.branch "." "." "." list) m).1 =
      (list.map (fun c => (express c m').1)).flatten := by
  have e : suppressed "." = true := by decide
  rw [express_branch_fragments "." "." "." list m m', e]
  simp [intercalate_empty_sep]

/-! ## release and the loop of main -/

theorem release_eq (t : Node) : ∀ n, release t n = n - countLeaves t := by
  refine Node.induct (fun t => ∀ n, release t n = n - countLeaves t)
    (fun l => ∀ n, releaseList l n = n - countLeavesList l) ?_ ?_ ?_ ?_ t
  · intro pre inter post list ih n
    simp only [release, countLeaves]; exact ih n
  · intro name myDepth n
    simp [release, countLeaves]
  · intro n; simp [releaseList, countLeavesList]
  · intro aNode next ih1 ih2 n
    simp only [releaseList, countLeavesList]
    rw [ih2, ih1]; push_cast; omega

theorem mainCycle_total (s : State) (hv : ValidOps s) :
    ∃ out s', mainCycle s = .ok (out, s') ∧ SameEnv s s' := by
  have hv0 : ValidOps { s with theDepth := 0, nodeCount := 0 } := hv
  obtain ⟨t, s1, h⟩ := populate_total .branch _ hv0
  obtain ⟨he, _, hn, _⟩ := populate_frame _ _ _ _ h
  have hr : release t s1.nodeCount = 0 := by
    rw [release_eq, hn]; simp
  refine ⟨["what = "] ++ (express t 0).1 ++
    ["; /* " ++ toString s1.nodeCount ++ " " ++ toString (express t 0).2 ++ " */\n"],
    s1, ?_, he⟩
  simp only [mainCycle, h, hr, if_true]

theorem mainLoop_total : ∀ (i : Nat) (s : State), ValidOps s →
    ∃ out s', mainLoop i s = .ok (out, s') := by
  intro i
  induction i with
  | zero => intro s _; exact ⟨[], s, rfl⟩
  | succ i ih =>
    intro s hv
    obtain ⟨out, s1, h1, he⟩ := mainCycle_total s hv
    obtain ⟨out2, s2, h2⟩ := ih s1 (hv.of_sameEnv he)
    refine ⟨out ++ out2, s2, ?_⟩
    simp only [mainLoop, h1, h2]

/-- Claim C7: for operator records with `0 <= low <= high`, `populate` on an
empty root returns a tree, and `release` of that tree brings the leaf counter
back to the value it had before `populate`; and the loop of `main`, which starts
every pass with the counter at 0, completes any number of passes, so the check
`assert(!nodeCount)` never fails. -/
theorem populate_release_neutral (s : State) (hv : ValidOps s) :
    (∃ t s', populate .branch s = .ok (t, s') ∧ release t s'.nodeCount = s.nodeCount) ∧
    (∀ i, ∃ out s', mainLoop i s = .ok (out, s')) := by
  refine ⟨?_, fun i => mainLoop_total i s hv⟩
  obtain ⟨t, s', h⟩ := populate_total .branch s hv
  refine ⟨t, s', h, ?_⟩
  rw [release_eq, (populate_frame _ _ _ _ h).2.2.1]
  omega

theorem populate_release_neutral_witness :
    ValidOps demoState ∧
      (∃ t s', populate .branch demoState = .ok (t, s') ∧
        release t s'.nodeCount = demoState.nodeCount) ∧
      (∀ i, ∃ out s', mainLoop i demoState = .ok (out, s')) :=
  ⟨demo_validOps, populate_release_neutral demoState demo_validOps⟩

/-! ## Depth of a leaf and its branch ancestors -/

/-- Claim C8: in a tree that `populate` builds from an empty root branch with
the depth tracker at 0, the `myDepth` stored on every leaf equals the number of
branch nodes on the path from the root to that leaf, the root included. -/
theorem populate_myDepth_eq_ancestors (s : State) (t : Node) (s' : State)
    (h : populate .branch s = .ok (t, s')) (h0 : s.theDepth = 0) :
    ∀ p ∈ leafPaths 0 t, p.1 = (p.2 : Int) := by
  intro p hp
  have := populateFuel_depths _ _ _ _ _ h 0 p hp
  rw [h0] at this
  omega

theorem populate_myDepth_eq_ancestors_witness :
    populate .branch demoState = .ok (demoTree, demoFinal) ∧ demoState.theDepth = 0 ∧
      leafPaths 0 demoTree = [(1, 1), (1, 1)] ∧
      ∀ p ∈ leafPaths 0 demoTree, p.1 = (p.2 : Int) :=
  ⟨demo_populate, rfl, by decide,
    populate_myDepth_eq_ancestors demoState demoTree demoFinal demo_populate rfl⟩

/-! ## End-to-end example -/

theorem endToEnd_populate (RM : Nat) (seq : Nat → Nat)
    (h1 : ¬ seq 1 < RM / 2) (h2 : ¬ seq 2 < RM / 2) :
    populate .branch (endToEndState RM seq) =
      .ok (.branch "(" "+" ")" [.leaf "a" 1, .leaf "b" 1],
        ⟨RM, seq, 3, [⟨"(", "+", ")", 2, 2⟩], 1, ["a", "b", "c"], 2, 0, 2⟩) := by
  have hb : budget (endToEndState RM seq) = 7 + 1 := rfl
  unfold populate
  rw [hb]
  simp [populateFuel, childLoop, endToEndState, readBranch, readLeaf, rand, numOps,
    chooseType, enterBranch, leaveBranch, countLeaf, h1, h2, Nat.mod_one]

/-- Claim C9: with the operator record `( + ) 2 2` and the operands `a`, `b`,
`c`, populating an empty root from trackers 0 when the coins of both child
slots (the second and third call of `rand`) are not below `RAND_MAX / 2`, so
that both slots resolve to a leaf, and rendering from tracker 0, gives the
fragments `(`, `a`, `+`, `b`, `)`, `nodeCount = 2` and `maxDepth = 1`. -/
theorem endToEnd_example (RM : Nat) (seq : Nat → Nat)
    (h1 : ¬ seq 1 < RM / 2) (h2 : ¬ seq 2 < RM / 2) :
    ∃ t s', populate .branch (endToEndState RM seq) = .ok (t, s') ∧
      t = .branch "(" "+" ")" [.leaf "a" 1, .leaf "b" 1] ∧
      (express t 0).1 = ["(", "a", "+", "b", ")"] ∧ s'.nodeCount = 2 ∧
      (express t 0).2 = 1 :=
  ⟨_, _, endToEnd_populate RM seq h1 h2, rfl, by decide, rfl, by decide⟩

theorem endToEnd_example_witness :
    (¬ (fun _ => 20000) 1 < 32767 / 2) ∧ (¬ (fun _ => 20000) 2 < 32767 / 2) ∧
      ∃ t s', populate .branch (endToEndState 32767 (fun _ => 20000)) = .ok (t, s') ∧
        t = .branch "(" "+" ")" [.leaf "a" 1, .leaf "b" 1] ∧
        (express t 0).1 = ["(", "a", "+", "b", ")"] ∧ s'.nodeCount = 2 ∧
        (express t 0).2 = 1 :=
  ⟨by decide, by decide, endToEnd_example 32767 (fun _ => 20000) (by decide) (by decide)⟩

/-! ## The decision taken for each child slot -/

theorem childLoop_frame (fuel : Nat) (k : Nat) (s : State) (cs : List Node) (s' : State)
    (h : childLoop (populateFuel fuel) k s = .ok (cs, s')) :
    SameEnv s s' ∧ s'.theDepth = s.theDepth ∧ cs.length = k := by
  refine childLoop_rule
    (fun _ s _ s' => SameEnv s s' ∧ s'.theDepth = s.theDepth)
    (fun k s cs s' => SameEnv s s' ∧ s'.theDepth = s.theDepth ∧ cs.length = k)
    (fun ty s c s' hc => ⟨(populateFuel_frame fuel ty s c s' hc).1,
      (populateFuel_frame fuel ty s c s' hc).2.1⟩)
    (fun s => ⟨SameEnv.rfl s, rfl, rfl⟩) ?_ k s cs s' h
  intro k s c s2 cs s3 hc hl
  refine ⟨(rand_sameEnv s).trans (hc.1.trans hl.1), ?_, by simp [hl.2.2]⟩
  rw [hl.2.1, hc.2, rand_theDepth]

/-- A loop of `i + k` iterations is the loop of `i` iterations followed by the
loop of `k` iterations from the state reached. -/
theorem childLoop_split {pop : nodeType → State → Except Fault (Node × State)} (k : Nat) :
    ∀ (i : Nat) (s : State) (cs : List Node) (s' : State),
      childLoop pop (i + k) s = .ok (cs, s') →
      ∃ done si rest, childLoop pop i s = .ok (done, si) ∧
        childLoop pop k si = .ok (rest, s') ∧ cs = done ++ rest ∧ done.length = i := by
  intro i
  induction i with
  | zero =>
    intro s cs s' h
    rw [Nat.zero_add] at h
    exact ⟨[], s, cs, rfl, h, rfl, rfl⟩
  | succ i ih =>
    intro s cs s' h
    rw [Nat.add_right_comm] at h
    simp only [childLoop] at h
    split at h
    · cases h
    · next c s2 hc =>
      split at h
      · cases h
      · next cs2 s3 hl =>
        simp only [Except.ok.injEq, Prod.mk.injEq] at h
        obtain ⟨e1, e2⟩ := h
        subst e1; subst e2
        obtain ⟨done, si, rest, hd, hr, hcs, hlen⟩ := ih s2 cs2 s3 hl
        refine ⟨c :: done, si, rest, ?_, hr, by simp [hcs], by simp [hlen]⟩
        simp only [childLoop, hc, hd]

/-- The first child built by a non-empty loop has the kind chosen by line 119
in the state at the head of the loop. -/
theorem childLoop_head (fuel k : Nat) (s : State) (cs : List Node) (s' : State)
    (h : childLoop (populateFuel fuel) (k + 1) s = .ok (cs, s')) :
    ∃ c rest, cs = c :: rest ∧ c.theType = chooseType (rand s).2 (rand s).1 := by
  simp only [childLoop] at h
  split at h
  · cases h
  · next c s2 hc =>
    split at h
    · cases h
    · next cs2 s3 hl =>
      simp only [Except.ok.injEq, Prod.mk.injEq] at h
      exact ⟨c, cs2, h.1.symm, (populateFuel_frame _ _ _ _ _ hc).2.2.2⟩

theorem chooseType_eq_branch_iff (s : State) (r : Nat) :
    chooseType s r = .branch ↔ r < s.RAND_MAX / 2 ∧ s.nodeCount < 20 ∧ s.theDepth < 7 := by
  unfold chooseType
  constructor
  · intro h
    split at h
    · assumption
    · cases h
  · intro h
    rw [if_pos h]

theorem theType_leaf_of_ne_branch (c : Node) (h : c.theType ≠ .branch) : c.theType = .leaf := by
  cases c with
  | branch pre inter post list => exact absurd rfl h
  | leaf name myDepth => rfl

/-- Claim C10: in `populate` of a branch, take any child slot `i` and the state
`si` in which its kind is decided (after the first `i` children are built; its
depth tracker is the value at entry plus one).  If the leaf counter is at least
20 or the depth tracker at least 7, the child is a leaf whatever the coin; and
the child is a branch exactly when the coin is below `RAND_MAX / 2`, the counter
below 20 and the depth below 7. -/
theorem populate_child_kind (fuel : Nat) (s : State) (t : Node) (s' : State)
    (h : populateFuel (fuel + 1) .branch s = .ok (t, s')) :
    ∃ pre inter post cs, t = .branch pre inter post cs ∧
      ∀ i, i < cs.length →
        ∃ done si c,
          childLoop (populateFuel fuel) i (rand (readBranch (enterBranch s)).2).2 =
            .ok (done, si) ∧
          done = cs.take i ∧ cs[i]? = some c ∧ si.theDepth = s.theDepth + 1 ∧
          ((20 ≤ si.nodeCount ∨ 7 ≤ si.theDepth) → c.theType = .leaf) ∧
          (c.theType = .branch ↔
            (rand si).1 < si.RAND_MAX / 2 ∧ si.nodeCount < 20 ∧ si.theDepth < 7) := by
  simp only [populateFuel] at h
  split at h
  · cases h
  · split at h
    · cases h
    · split at h
      · cases h
      · next cs s4 hl =>
        simp only [Except.ok.injEq, Prod.mk.injEq] at h
        refine ⟨_, _, _, cs, h.1.symm, ?_⟩
        intro i hi
        have hlen := (childLoop_frame _ _ _ _ _ hl).2.2
        obtain ⟨k, hk⟩ : ∃ k, (numOps (readBranch (enterBranch s)).1
            (rand (readBranch (enterBranch s)).2).1).toNat = i + (k + 1) :=
          ⟨cs.length - i - 1, by omega⟩
        rw [hk] at hl
        obtain ⟨done, si, rest, hd, hr, hcs, hdl⟩ := childLoop_split (k + 1) i _ _ _ hl
        obtain ⟨c, rest2, hrest, hty⟩ := childLoop_head _ _ _ _ _ hr
        have hdepth : si.theDepth = s.theDepth + 1 := by
          rw [(childLoop_frame _ _ _ _ _ hd).2.1]
          exact (branchStart_facts s).2.1
        have hiff := chooseType_eq_branch_iff (rand si).2 (rand si).1
        rw [← hty] at hiff
        refine ⟨done, si, c, hd, ?_, ?_, hdepth, ?_, hiff⟩
        · rw [hcs, ← hdl]; simp
        · rw [hcs, hrest, ← hdl, List.getElem?_append_right (Nat.le_refl _)]; simp
        · intro hcap
          apply theType_leaf_of_ne_branch
          intro hb
          have := hiff.mp hb
          have e1 : (rand si).2.nodeCount = si.nodeCount := rfl
          have e2 : (rand si).2.theDepth = si.theDepth := rfl
          omega

theorem populate_child_kind_witness :
    populateFuel (7 + 1) .branch demoState = .ok (demoTree, demoFinal) ∧
      ∃ pre inter post cs, demoTree = .branch pre inter post cs ∧
        ∀ i, i < cs.length →
          ∃ done si c,
            childLoop (populateFuel 7) i (rand (readBranch (enterBranch demoState)).2).2 =
              .ok (done, si) ∧
            done = cs.take i ∧ cs[i]? = some c ∧ si.theDepth = demoState.theDepth + 1 ∧
            ((20 ≤ si.nodeCount ∨ 7 ≤ si.theDepth) → c.theType = .leaf) ∧
            (c.theType = .branch ↔
              (rand si).1 < si.RAND_MAX / 2 ∧ si.nodeCount < 20 ∧ si.theDepth < 7) :=
  ⟨demo_populate, populate_child_kind 7 demoState demoTree demoFinal demo_populate⟩

/-! ## Number of children of a branch -/

/-- A successful run of the branch case went through the child loop with
`numOps` iterations, the modulus being non-zero and `numOps` non-negative. -/
theorem populateFuel_branch_inv (fuel : Nat) (s : State) (t : Node) (s' : State)
    (h : populateFuel (fuel + 1) .branch s = .ok (t, s')) :
    (readBranch (enterBranch s)).1.high - (readBranch (enterBranch s)).1.low + 1 ≠ 0 ∧
    0 ≤ numOps (readBranch (enterBranch s)).1 (rand (readBranch (enterBranch s)).2).1 ∧
    ∃ cs s4,
      childLoop (populateFuel fuel)
        (numOps (readBranch (enterBranch s)).1 (rand (readBranch (enterBranch s)).2).1).toNat
        (rand (readBranch (enterBranch s)).2).2 = .ok (cs, s4) ∧
      t = .branch (readBranch (enterBranch s)).1.pre (readBranch (enterBranch s)).1.inter
        (readBranch (enterBranch s)).1.post cs ∧
      s' = leaveBranch s4 := by
  simp only [populateFuel] at h
  split at h
  · cases h
  · next hm =>
    split at h
    · cases h
    · next hn =>
      split at h
      · cases h
      · next cs s4 hl =>
        simp only [Except.ok.injEq, Prod.mk.injEq] at h
        exact ⟨hm, not_lt.mp hn, cs, s4, hl, h.1.symm, h.2.symm⟩

/-- Claim C11: for a branch populated from an operator record with
`0 <= low <= high` and a draw `r` of `rand()`, the modulus `high - low + 1` is
positive, and the number of children appended is
`numOps = (r mod (high - low + 1)) + low`, which lies in `[low, high]`. -/
theorem populate_numOps_range (fuel : Nat) (s : State) (t : Node) (s' : State)
    (h : populateFuel (fuel + 1) .branch s = .ok (t, s'))
    (_hlow : 0 ≤ (readBranch (enterBranch s)).1.low)
    (hhigh : (readBranch (enterBranch s)).1.low ≤ (readBranch (enterBranch s)).1.high) :
    0 < (readBranch (enterBranch s)).1.high - (readBranch (enterBranch s)).1.low + 1 ∧
    ∃ cs, t = .branch (readBranch (enterBranch s)).1.pre (readBranch (enterBranch s)).1.inter
        (readBranch (enterBranch s)).1.post cs ∧
      (cs.length : Int) =
        ((rand (readBranch (enterBranch s)).2).1 : Int) %
          ((readBranch (enterBranch s)).1.high - (readBranch (enterBranch s)).1.low + 1) +
          (readBranch (enterBranch s)).1.low ∧
      (readBranch (enterBranch s)).1.low ≤ cs.length ∧
      (cs.length : Int) ≤ (readBranch (enterBranch s)).1.high := by
  obtain ⟨_, hn, cs, s4, hl, ht, _⟩ := populateFuel_branch_inv fuel s t s' h
  obtain ⟨_, hlo, hhi⟩ := numOps_bounds (readBranch (enterBranch s)).1
    (rand (readBranch (enterBranch s)).2).1 hhigh
  have hlen := (childLoop_frame _ _ _ _ _ hl).2.2
  have hcast : (cs.length : Int) =
      numOps (readBranch (enterBranch s)).1 (rand (readBranch (enterBranch s)).2).1 := by
    rw [hlen]; exact Int.toNat_of_nonneg hn
  have hmod : numOps (readBranch (enterBranch s)).1 (rand (readBranch (enterBranch s)).2).1 =
      ((rand (readBranch (enterBranch s)).2).1 : Int) %
        ((readBranch (enterBranch s)).1.high - (readBranch (enterBranch s)).1.low + 1) +
        (readBranch (enterBranch s)).1.low := by
    unfold numOps
    rw [Int.tmod_eq_emod (Int.ofNat_nonneg _) (by omega)]
  refine ⟨by omega, cs, ht, ?_, ?_, ?_⟩
  · rw [hcast, hmod]
  · rw [hcast]; exact hlo
  · rw [hcast]; exact hhi

theorem populate_numOps_range_witness :
    populateFuel (7 + 1) .branch demoState = .ok (demoTree, demoFinal) ∧
    0 ≤ (readBranch (enterBranch demoState)).1.low ∧
    (readBranch (enterBranch demoState)).1.low ≤ (readBranch (enterBranch demoState)).1.high ∧
    (0 < (readBranch (enterBranch demoState)).1.high -
        (readBranch (enterBranch demoState)).1.low + 1 ∧
      ∃ cs, demoTree = .branch (readBranch (enterBranch demoState)).1.pre
          (readBranch (enterBranch demoState)).1.inter
          (readBranch (enterBranch demoState)).1.post cs ∧
        (cs.length : Int) =
          ((rand (readBranch (enterBranch demoState)).2).1 : Int) %
            ((readBranch (enterBranch demoState)).1.high -
              (readBranch (enterBranch demoState)).1.low + 1) +
            (readBranch (enterBranch demoState)).1.low ∧
        (readBranch (enterBranch demoState)).1.low ≤ cs.length ∧
        (cs.length : Int) ≤ (readBranch (enterBranch demoState)).1.high) :=
  ⟨demo_populate, by decide, by decide,
    populate_numOps_range 7 demoState demoTree demoFinal demo_populate (by decide) (by decide)⟩

/-! ## Branches without children -/

theorem readBranch_mem (s : State) (hne : s.brnchFile ≠ []) :
    (readBranch s).1 ∈ s.brnchFile := by
  unfold readBranch; split
  · next e he => exact List.get?_mem he
  · split
    · next e he => exact List.mem_of_mem_head? he
    · next hnone =>
      cases hf : s.brnchFile with
      | nil => exact absurd hf hne
      | cons a l => rw [hf] at hnone; simp at hnone

theorem positiveOps_of_sameEnv {s s' : State} (h : SameEnv s s') (hp : PositiveOps s) :
    PositiveOps s' := by
  unfold PositiveOps; rw [h.2.2.1]; exact hp

theorem positiveOps_validOps {s : State} (hp : PositiveOps s) : ValidOps s := by
  intro e he
  have := hp.2 e he
  exact ⟨by omega, this.2⟩

theorem populateFuel_branchesNonEmpty (fuel : Nat) (ty : nodeType) (s : State) (t : Node)
    (s' : State) (h : populateFuel fuel ty s = .ok (t, s')) (hp : PositiveOps s) :
    BranchesNonEmpty t := by
  refine (populateFuel_rule
    (fun _ s t s' => SameEnv s s' ∧ (PositiveOps s → BranchesNonEmpty t))
    (fun k s cs s' => SameEnv s s' ∧ (PositiveOps s → BranchesNonEmptyList cs) ∧
      cs.length = k)
    ?_ ?_ ?_ ?_ fuel ty s t s' h).2 hp
  · intro s
    exact ⟨(countLeaf_sameEnv s).trans (readLeaf_sameEnv _), fun _ => by simp [BranchesNonEmpty]⟩
  · intro s
    exact ⟨SameEnv.rfl s, fun _ => by simp [BranchesNonEmptyList], rfl⟩
  · intro k s c s2 cs s3 hc hl
    refine ⟨(rand_sameEnv s).trans (hc.1.trans hl.1), ?_, by simp [hl.2.2]⟩
    intro hp
    have hp1 : PositiveOps (rand s).2 := positiveOps_of_sameEnv (rand_sameEnv s) hp
    simp only [BranchesNonEmptyList]
    exact ⟨hc.2 hp1, hl.2.1 (positiveOps_of_sameEnv hc.1 hp1)⟩
  · intro s cs s4 _ hn hl
    obtain ⟨e0, _, _⟩ := branchStart_facts s
    refine ⟨e0.trans (hl.1.trans (leaveBranch_sameEnv s4)), ?_⟩
    intro hp
    have hmem := readBranch_mem (enterBranch s) hp.1
    obtain ⟨h1, h2⟩ := hp.2 _ hmem
    obtain ⟨_, hlo, _⟩ := numOps_bounds (readBranch (enterBranch s)).1
      (rand (readBranch (enterBranch s)).2).1 h2
    simp only [BranchesNonEmpty]
    refine ⟨?_, hl.2.1 (positiveOps_of_sameEnv e0 hp)⟩
    intro hnil
    have hlen := hl.2.2
    rw [hnil] at hlen
    simp only [List.length_nil] at hlen
    omega

/-- Counterexample to claim C12 as stated: the record `( + ) 0 2` has
`0 <= low <= high`, the draw 0 gives `numOps = 0`, and `populate` returns a root
branch without any child. -/
theorem populate_childless_branch :
    ValidOps childlessState ∧
      populate .branch childlessState = .ok (.branch "(" "+" ")" [], childlessFinal) ∧
      ¬ BranchesNonEmpty (.branch "(" "+" ")" []) := by
  refine ⟨?_, rfl, ?_⟩
  · intro e he
    simp only [childlessState, List.mem_singleton] at he
    subst he
    decide
  · simp [BranchesNonEmpty]

/-- Claim C12, amended: when the operator file is not empty and every record
has `1 <= low <= high`, `populate` returns a tree in which every branch has at
least one child, for every random sequence. -/
theorem populate_branches_nonEmpty (s : State) (hp : PositiveOps s) :
    ∃ t s', populate .branch s = .ok (t, s') ∧ BranchesNonEmpty t := by
  obtain ⟨t, s', h⟩ := populate_total .branch s (positiveOps_validOps hp)
  exact ⟨t, s', h, populateFuel_branchesNonEmpty _ _ _ _ _ h hp⟩

theorem demo_positiveOps : PositiveOps demoState := by
  refine ⟨by simp [demoState], ?_⟩
  intro e he
  simp only [demoState, List.mem_singleton] at he
  subst he
  decide

theorem populate_branches_nonEmpty_witness :
    PositiveOps demoState ∧
      ∃ t s', populate .branch demoState = .ok (t, s') ∧ BranchesNonEmpty t :=
  ⟨demo_positiveOps, populate_branches_nonEmpty demoState demo_positiveOps⟩

/-! ## Termination -/

theorem childLoop_mono {pop pop' : nodeType → State → Except Fault (Node × State)}
    (hpop : ∀ ty s r, pop ty s = .ok r → pop' ty s = .ok r) :
    ∀ (k : Nat) (s : State) (x : List Node × State),
      childLoop pop k s = .ok x → childLoop pop' k s = .ok x := by
  intro k
  induction k with
  | zero => intro s x h; exact h
  | succ k ih =>
    intro s x h
    simp only [childLoop] at h
    split at h
    · cases h
    · next c s2 hc =>
      split at h
      · cases h
      · next cs s3 hl =>
        simp only [childLoop, hpop _ _ _ hc, ih _ _ hl]
        exact h

/-- A larger nesting bound does not change a result already obtained. -/
theorem populateFuel_succ :
    ∀ (fuel : Nat) (ty : nodeType) (s : State) (r : Node × State),
      populateFuel fuel ty s = .ok r → populateFuel (fuel + 1) ty s = .ok r := by
  intro fuel
  induction fuel with
  | zero =>
    intro ty s r h
    cases ty with
    | leaf => exact h
    | branch => simp [populateFuel] at h
  | succ fuel ih =>
    intro ty s r h
    cases ty with
    | leaf => exact h
    | branch =>
      obtain ⟨t, s'⟩ := r
      obtain ⟨hm, hn, cs, s4, hl, ht, hs⟩ := populateFuel_branch_inv fuel s t s' h
      have hl2 := childLoop_mono ih _ _ _ hl
      have hn2 : ¬ numOps (readBranch (enterBranch s)).1
          (rand (readBranch (enterBranch s)).2).1 < 0 := not_lt.mpr hn
      rw [ht, hs]
      simp only [populateFuel, hm, hn2, hl2, if_false]

theorem populateFuel_mono (fuel extra : Nat) (ty : nodeType) (s : State) (r : Node × State)
    (h : populateFuel fuel ty s = .ok r) : populateFuel (fuel + extra) ty s = .ok r := by
  induction extra with
  | zero => exact h
  | succ n ih => exact populateFuel_succ _ _ _ _ ih

/-- Claim C13: for operator records with `0 <= low <= high` and every random
sequence, `populate` terminates with a node; the nesting of its recursive calls
stays within the bound taken from `7 - depth` (any larger bound gives the same
result); and a recursive call on a branch child starts with the depth tracker
one higher and still below 7, so the measure `7 - depth` strictly decreases. -/
theorem populate_terminates (ty : nodeType) (s : State) (hv : ValidOps s) :
    (∃ t s', populate ty s = .ok (t, s')) ∧
    (∀ fuel, budget s ≤ fuel → populateFuel fuel ty s = populate ty s) ∧
    (∀ fuel i done si,
      childLoop (populateFuel fuel) i (rand (readBranch (enterBranch s)).2).2 =
        .ok (done, si) →
      chooseType (rand si).2 (rand si).1 = .branch →
      (rand si).2.theDepth = s.theDepth + 1 ∧ (rand si).2.theDepth < 7 ∧
        (7 - (rand si).2.theDepth).toNat < (7 - s.theDepth).toNat) := by
  obtain ⟨t, s', h⟩ := populate_total ty s hv
  refine ⟨⟨t, s', h⟩, ?_, ?_⟩
  · intro fuel hf
    obtain ⟨extra, rfl⟩ := Nat.exists_eq_add_of_le hf
    rw [h]
    exact populateFuel_mono _ _ _ _ _ h
  · intro fuel i done si hd hb
    have hdepth : si.theDepth = s.theDepth + 1 := by
      rw [(childLoop_frame _ _ _ _ _ hd).2.1]
      exact (branchStart_facts s).2.1
    have hlt := (chooseType_branch hb).2.2
    have e : (rand si).2.theDepth = si.theDepth := rfl
    rw [e] at hlt ⊢
    refine ⟨hdepth, hlt, ?_⟩
    omega

theorem populate_terminates_witness :
    ValidOps demoState ∧
    (∃ t s', populate .branch demoState = .ok (t, s')) ∧
    (∀ fuel, budget demoState ≤ fuel →
      populateFuel fuel .branch demoState = populate .branch demoState) ∧
    (∀ fuel i done si,
      childLoop (populateFuel fuel) i (rand (readBranch (enterBranch demoState)).2).2 =
        .ok (done, si) →
      chooseType (rand si).2 (rand si).1 = .branch →
      (rand si).2.theDepth = demoState.theDepth + 1 ∧ (rand si).2.theDepth < 7 ∧
        (7 - (rand si).2.theDepth).toNat < (7 - demoState.theDepth).toNat) :=
  ⟨demo_validOps, populate_terminates .branch demoState demo_validOps⟩

/-! ## Rendering twice -/

/-- Claim C14: rendering is idempotent.  `express` is a function of the tree,
which it does not change; run a second time, starting from the tracker value
left by the first run (or from any other value), it prints the same fragments
and leaves the same tracker value. -/
theorem express_idempotent (t : Node) (m : Int) :
    (express t (express t m).2).1 = (express t m).1 ∧
    (express t (express t m).2).2 = (express t m).2 ∧
    ∀ m', (express t m').1 = (express t m).1 := by
  refine ⟨express_fst_indep t _ _, ?_, fun m' => express_fst_indep t _ _⟩
  rw [express_snd_eq_foldl t (express t m).2, express_snd_eq_foldl t m]
  generalize leafDepths t = l
  induction l generalizing m with
  | nil => simp
  | cons a l ih =>
    simp only [List.foldl_cons]
    have h1 := foldl_max_ge l (max m a)
    have h2 : a ≤ max m a := le_max_right m a
    have h3 : max (List.foldl max (max m a) l) a = List.foldl max (max m a) l :=
      max_eq_left (le_trans h2 h1)
    rw [h3]
    exact ih (max m a)

/-! ## Token sources with a single entry -/

theorem readLeaf_single (s : State) (tok : String) (h : s.leafFile = [tok]) :
    (readLeaf s).1 = tok ∧ (readLeaf s).2.leafPos = 1 ∧ (readLeaf s).2.leafFile = [tok] := by
  unfold readLeaf
  rw [h]
  cases s.leafPos with
  | zero => simp [h]
  | succ n => simp [h]

theorem readBranch_single (s : State) (e : OpEntry) (h : s.brnchFile = [e]) :
    (readBranch s).1 = e ∧ (readBranch s).2.brnchPos = 1 ∧ (readBranch s).2.brnchFile = [e] := by
  unfold readBranch
  rw [h]
  cases s.brnchPos with
  | zero => simp [h]
  | succ n => simp [h]

theorem populateFuel_single (fuel : Nat) (ty : nodeType) (s : State) (t : Node) (s' : State)
    (h : populateFuel fuel ty s = .ok (t, s')) :
    (∀ tok, s.leafFile = [tok] → ∀ n ∈ leafNames t, n = tok) ∧
    (∀ e, s.brnchFile = [e] → ∀ b ∈ branchTokens t, b = (e.pre, e.inter, e.post)) := by
  refine (populateFuel_rule
    (fun _ s t s' => SameEnv s s' ∧
      (∀ tok, s.leafFile = [tok] → ∀ n ∈ leafNames t, n = tok) ∧
      (∀ e, s.brnchFile = [e] → ∀ b ∈ branchTokens t, b = (e.pre, e.inter, e.post)))
    (fun _ s cs s' => SameEnv s s' ∧
      (∀ tok, s.leafFile = [tok] → ∀ n ∈ leafNamesList cs, n = tok) ∧
      (∀ e, s.brnchFile = [e] → ∀ b ∈ branchTokensList cs, b = (e.pre, e.inter, e.post)))
    ?_ ?_ ?_ ?_ fuel ty s t s' h).2
  · intro s
    refine ⟨(countLeaf_sameEnv s).trans (readLeaf_sameEnv _), ?_, ?_⟩
    · intro tok hf n hn
      simp only [leafNames, List.mem_singleton] at hn
      rw [hn]
      exact (readLeaf_single (countLeaf s) tok hf).1
    · intro e _ b hb
      simp [branchTokens] at hb
  · intro s
    exact ⟨SameEnv.rfl s, fun _ _ n hn => by simp [leafNamesList] at hn,
      fun _ _ b hb => by simp [branchTokensList] at hb⟩
  · intro k s c s2 cs s3 hc hl
    obtain ⟨e1, n1, b1⟩ := hc
    obtain ⟨e2, n2, b2⟩ := hl
    refine ⟨(rand_sameEnv s).trans (e1.trans e2), ?_, ?_⟩
    · intro tok hf n hn
      simp only [leafNamesList, List.mem_append] at hn
      rcases hn with hn | hn
      · exact n1 tok hf n hn
      · exact n2 tok (by rw [e1.2.2.2]; exact hf) n hn
    · intro e hf b hb
      simp only [branchTokensList, List.mem_append] at hb
      rcases hb with hb | hb
      · exact b1 e hf b hb
      · exact b2 e (by rw [e1.2.2.1]; exact hf) b hb
  · intro s cs s4 _ _ hl
    obtain ⟨e2, n2, b2⟩ := hl
    obtain ⟨e0, _, _⟩ := branchStart_facts s
    refine ⟨e0.trans (e2.trans (leaveBranch_sameEnv s4)), ?_, ?_⟩
    · intro tok hf n hn
      simp only [leafNames] at hn
      exact n2 tok (by rw [e0.2.2.2]; exact hf) n hn
    · intro e hf b hb
      simp only [branchTokens, List.mem_cons] at hb
      rcases hb with hb | hb
      · rw [hb, (readBranch_single (enterBranch s) e hf).1]
      · exact b2 e (by rw [e0.2.2.1]; exact hf) b hb

theorem single_populate : populate .branch singleState = .ok (singleTree, singleFinal) := rfl

/-- Claim C15: with a token file that holds exactly one entry, every read, from
any cursor position, delivers that entry and leaves the cursor just after it
(at the end of the file the read rewinds and retries once); so every leaf built
by `populate` carries the single operand token and every branch the single
operator record. -/
theorem populate_single_entry (ty : nodeType) (s : State) (t : Node) (s' : State)
    (h : populate ty s = .ok (t, s')) :
    (∀ tok, s.leafFile = [tok] → ∀ n ∈ leafNames t, n = tok) ∧
    (∀ e, s.brnchFile = [e] → ∀ b ∈ branchTokens t, b = (e.pre, e.inter, e.post)) ∧
    (∀ (s0 : State) tok, s0.leafFile = [tok] →
      (readLeaf s0).1 = tok ∧ (readLeaf s0).2.leafPos = 1 ∧ (readLeaf s0).2.leafFile = [tok]) ∧
    (∀ (s0 : State) e, s0.brnchFile = [e] →
      (readBranch s0).1 = e ∧ (readBranch s0).2.brnchPos = 1 ∧
        (readBranch s0).2.brnchFile = [e]) :=
  ⟨(populateFuel_single _ _ _ _ _ h).1, (populateFuel_single _ _ _ _ _ h).2,
    fun s0 tok h0 => readLeaf_single s0 tok h0, fun s0 e h0 => readBranch_single s0 e h0⟩

theorem populate_single_entry_witness :
    populate .branch singleState = .ok (singleTree, singleFinal) ∧
    singleState.leafFile = ["a"] ∧ singleState.brnchFile = [⟨"(", "+", ")", 2, 2⟩] ∧
    leafNames singleTree = ["a", "a", "a"] ∧
    (∀ n ∈ leafNames singleTree, n = "a") ∧
    (∀ b ∈ branchTokens singleTree, b = ("(", "+", ")")) :=
  ⟨single_populate, rfl, rfl, by decide,
    (populate_single_entry .branch singleState singleTree singleFinal single_populate).1
      "a" rfl,
    (populate_single_entry .branch singleState singleTree singleFinal single_populate).2.1
      ⟨"(", "+", ")", 2, 2⟩ rfl⟩

/-! ## The depth tracker is restored -/

/-- Claim C16: `populate` leaves the depth tracker unchanged.  For a node of
either kind, operator records with `0 <= low <= high` and any random sequence,
the run returns with the tracker at its value on entry; hence every child slot
of a branch is reached with the same tracker value, the entry value plus one. -/
theorem populate_depth_restored (ty : nodeType) (s : State) (hv : ValidOps s) :
    (∃ t s', populate ty s = .ok (t, s') ∧ s'.theDepth = s.theDepth) ∧
    (∀ fuel i done si,
      childLoop (populateFuel fuel) i (rand (readBranch (enterBranch s)).2).2 =
        .ok (done, si) → si.theDepth = s.theDepth + 1) := by
  obtain ⟨t, s', h⟩ := populate_total ty s hv
  refine ⟨⟨t, s', h, (populate_frame ty s t s' h).2.1⟩, ?_⟩
  intro fuel i done si hd
  rw [(childLoop_frame _ _ _ _ _ hd).2.1]
  exact (branchStart_facts s).2.1

theorem populate_depth_restored_witness :
    ValidOps demoState ∧
    (∃ t s', populate .branch demoState = .ok (t, s') ∧ s'.theDepth = demoState.theDepth) ∧
    (∀ fuel i done si,
      childLoop (populateFuel fuel) i (rand (readBranch (enterBranch demoState)).2).2 =
        .ok (done, si) → si.theDepth = demoState.theDepth + 1) :=
  ⟨demo_validOps, populate_depth_restored .branch demoState demo_validOps⟩

/-! ## Bounds on the stored depth -/

/-- Depths stored by a run of `populate` entered with depth tracker `d`: a leaf
stores `d`; the leaves below a branch store values from `d + 1` up to 7, or
exactly `d + 1` when `d + 1` is already beyond 7. -/
theorem populateFuel_depth_bounds (fuel : Nat) (ty : nodeType) (s : State) (t : Node)
    (s' : State) (h : populateFuel fuel ty s = .ok (t, s')) :
    ∀ d ∈ leafDepths t, (ty = .leaf → d = s.theDepth) ∧
      (ty = .branch → s.theDepth + 1 ≤ d ∧ d ≤ max (s.theDepth + 1) 7) := by
  refine (populateFuel_rule
    (fun ty s t s' => s'.theDepth = s.theDepth ∧
      ∀ d ∈ leafDepths t, (ty = .leaf → d = s.theDepth) ∧
        (ty = .branch → s.theDepth + 1 ≤ d ∧ d ≤ max (s.theDepth + 1) 7))
    (fun _ s cs s' => s'.theDepth = s.theDepth ∧
      ∀ d ∈ leafDepthsList cs, s.theDepth ≤ d ∧ d ≤ max s.theDepth 7)
    ?_ ?_ ?_ ?_ fuel ty s t s' h).2
  · intro s
    refine ⟨by rw [readLeaf_theDepth]; rfl, ?_⟩
    intro d hd
    simp only [leafDepths, List.mem_singleton] at hd
    exact ⟨fun _ => hd, fun hb => (by cases hb)⟩
  · intro s
    exact ⟨rfl, fun d hd => by simp [leafDepthsList] at hd⟩
  · intro k s c s2 cs s3 hc hl
    obtain ⟨d1, q1⟩ := hc
    obtain ⟨d2, q2⟩ := hl
    rw [rand_theDepth] at d1 q1
    refine ⟨by rw [d2, d1], ?_⟩
    intro d hd
    simp only [leafDepthsList, List.mem_append] at hd
    rcases hd with hd | hd
    · cases hty : chooseType (rand s).2 (rand s).1 with
      | leaf =>
        have := (q1 d hd).1 hty
        omega
      | branch =>
        have hlt : s.theDepth < 7 := (chooseType_branch hty).2.2
        have := (q1 d hd).2 hty
        omega
    · have := q2 d hd
      rw [d1] at this
      exact this
  · intro s cs s4 _ _ hl
    obtain ⟨d2, q2⟩ := hl
    obtain ⟨_, d0, _⟩ := branchStart_facts s
    refine ⟨?_, ?_⟩
    · show s4.theDepth - 1 = s.theDepth
      rw [d2, d0]; omega
    · intro d hd
      simp only [leafDepths] at hd
      have := q2 d hd
      rw [d0] at this
      exact ⟨fun hb => (by cases hb), fun _ => this⟩

/-- Claim C18: in a tree that `populate` builds from an empty root branch with
the depth tracker at 0, every leaf stores a depth between 1 and 7, so the
`maxDepth` reported by `express` from tracker 0 never exceeds 7. -/
theorem populate_leaf_depth_range (s : State) (t : Node) (s' : State)
    (h : populate .branch s = .ok (t, s')) (h0 : s.theDepth = 0) :
    (∀ d ∈ leafDepths t, 1 ≤ d ∧ d ≤ 7) ∧ (express t 0).2 ≤ 7 := by
  have hb : ∀ d ∈ leafDepths t, 1 ≤ d ∧ d ≤ 7 := by
    intro d hd
    have := (populateFuel_depth_bounds _ _ _ _ _ h d hd).2 rfl
    rw [h0] at this
    omega
  refine ⟨hb, ?_⟩
  rw [express_snd_eq_foldl]
  rcases foldl_max_mem (leafDepths t) 0 with hz | hm
  · omega
  · exact (hb _ hm).2

theorem populate_leaf_depth_range_witness :
    populate .branch singleState = .ok (singleTree, singleFinal) ∧ singleState.theDepth = 0 ∧
    leafDepths singleTree = [2, 2, 1] ∧
    ((∀ d ∈ leafDepths singleTree, 1 ≤ d ∧ d ≤ 7) ∧ (express singleTree 0).2 ≤ 7) :=
  ⟨single_populate, rfl, by decide,
    populate_leaf_depth_range singleState singleTree singleFinal single_populate rfl⟩

/-! ## How far the leaf counter can pass the cap -/

theorem boundedOps_of_sameEnv {H : Nat} {s s' : State} (h : SameEnv s s')
    (hb : BoundedOps H s) : BoundedOps H s' := by
  unfold BoundedOps; rw [h.2.2.1]; exact hb

theorem boundedOps_validOps {H : Nat} {s : State} (hb : BoundedOps H s) : ValidOps s :=
  fun e he => ⟨(hb e he).1, (hb e he).2.1⟩

theorem readBranch_bounded (H : Nat) (s : State) (hb : BoundedOps H s) :
    (readBranch s).1.low ≤ (readBranch s).1.high ∧ (readBranch s).1.high ≤ H := by
  unfold readBranch; split
  · next e he => exact (hb e (List.get?_mem he)).2
  · split
    · next e he => exact (hb e (List.mem_of_mem_head? he)).2
    · simp

theorem overshoot_nonneg (H : Nat) (d : Int) : 0 ≤ overshoot H d := by
  unfold overshoot
  exact Int.mul_nonneg (Int.ofNat_nonneg _) (Int.ofNat_nonneg _)

theorem overshoot_step (H : Nat) (d : Int) (hd : d < 7) :
    overshoot H d = overshoot H (d + 1) + ((H - 1 : Nat) : Int) := by
  unfold overshoot
  have e : (7 - d).toNat = (7 - (d + 1)).toNat + 1 := by omega
  rw [e]
  push_cast
  ring

/-- Growth of the leaf counter in a run of `populate` on records with
`high <= H`: a leaf adds one; a branch entered with the counter at 20 or more
adds at most `H` leaves; a branch entered below 20 ends at most at
`20 + (H - 1) + overshoot H (d + 1)`. -/
theorem populateFuel_count_bound (H : Nat) (fuel : Nat) (ty : nodeType) (s : State)
    (t : Node) (s' : State) (h : populateFuel fuel ty s = .ok (t, s'))
    (hb : BoundedOps H s) :
    (ty = .leaf → s'.nodeCount = s.nodeCount + 1) ∧
    (ty = .branch → s.nodeCount ≤ s'.nodeCount ∧
      (20 ≤ s.nodeCount → s'.nodeCount ≤ s.nodeCount + H) ∧
      (s.nodeCount < 20 →
        s'.nodeCount ≤ 20 + ((H - 1 : Nat) : Int) + overshoot H (s.theDepth + 1))) := by
  refine (populateFuel_rule
    (fun ty s _ s' => SameEnv s s' ∧ s'.theDepth = s.theDepth ∧ (BoundedOps H s →
      (ty = .leaf → s'.nodeCount = s.nodeCount + 1) ∧
      (ty = .branch → s.nodeCount ≤ s'.nodeCount ∧
        (20 ≤ s.nodeCount → s'.nodeCount ≤ s.nodeCount + H) ∧
        (s.nodeCount < 20 →
          s'.nodeCount ≤ 20 + ((H - 1 : Nat) : Int) + overshoot H (s.theDepth + 1)))))
    (fun k s _ s' => SameEnv s s' ∧ s'.theDepth = s.theDepth ∧ (BoundedOps H s →
      s.nodeCount ≤ s'.nodeCount ∧
      (20 ≤ s.nodeCount → s'.nodeCount ≤ s.nodeCount + k) ∧
      (s.nodeCount < 20 → s'.nodeCount ≤ 19 + k + overshoot H s.theDepth)))
    ?_ ?_ ?_ ?_ fuel ty s t s' h).2.2 hb
  · intro s
    refine ⟨(countLeaf_sameEnv s).trans (readLeaf_sameEnv _),
      by rw [readLeaf_theDepth]; rfl, fun _ => ⟨fun _ => ?_, fun hb => (by cases hb)⟩⟩
    rw [readLeaf_nodeCount]; rfl
  · intro s
    refine ⟨SameEnv.rfl s, rfl, fun _ => ⟨le_refl _, fun _ => by simp, fun hlt => ?_⟩⟩
    have := overshoot_nonneg H s.theDepth
    push_cast
    omega
  · intro k s c s2 cs s3 hc hl
    obtain ⟨e1, d1, q1⟩ := hc
    obtain ⟨e2, d2, q2⟩ := hl
    rw [rand_theDepth] at d1
    refine ⟨(rand_sameEnv s).trans (e1.trans e2), by rw [d2, d1], ?_⟩
    intro hbs
    have hb1 : BoundedOps H (rand s).2 := boundedOps_of_sameEnv (rand_sameEnv s) hbs
    obtain ⟨ql, qb⟩ := q1 hb1
    obtain ⟨m2, c2, b2⟩ := q2 (boundedOps_of_sameEnv e1 hb1)
    rw [d1] at b2
    have hO := overshoot_nonneg H s.theDepth
    have en : (rand s).2.nodeCount = s.nodeCount := rfl
    have ed : (rand s).2.theDepth = s.theDepth := rfl
    rw [en] at ql qb
    rw [ed] at qb
    cases hty : chooseType (rand s).2 (rand s).1 with
    | leaf =>
      have h1 := ql hty
      push_cast
      refine ⟨by omega, fun h20 => ?_, fun hlt => ?_⟩
      · have := c2 (by omega)
        omega
      · by_cases h2 : s2.nodeCount < 20
        · have := b2 h2; omega
        · have := c2 (by omega); omega
    | branch =>
      obtain ⟨_, hn, hd⟩ := chooseType_branch hty
      rw [en] at hn
      rw [ed] at hd
      obtain ⟨m1, _, b1⟩ := qb hty
      have h1 := b1 hn
      have hstep := overshoot_step H s.theDepth hd
      push_cast
      refine ⟨by omega, fun h20 => by omega, fun _ => ?_⟩
      by_cases h2 : s2.nodeCount < 20
      · have := b2 h2; omega
      · have := c2 (by omega); omega
  · intro s cs s4 _ hn hl
    obtain ⟨e2, d2, q2⟩ := hl
    obtain ⟨e0, d0, n0⟩ := branchStart_facts s
    refine ⟨e0.trans (e2.trans (leaveBranch_sameEnv s4)), ?_, ?_⟩
    · show s4.theDepth - 1 = s.theDepth
      rw [d2, d0]; omega
    · intro hbs
      refine ⟨fun hb => (by cases hb), fun _ => ?_⟩
      obtain ⟨m2, c2, b2⟩ := q2 (boundedOps_of_sameEnv e0 hbs)
      rw [n0] at m2 c2 b2
      rw [d0] at b2
      obtain ⟨hlh, hhH⟩ := readBranch_bounded H (enterBranch s)
        (boundedOps_of_sameEnv (enterBranch_sameEnv s) hbs)
      obtain ⟨_, _, hhi⟩ := numOps_bounds (readBranch (enterBranch s)).1
        (rand (readBranch (enterBranch s)).2).1 hlh
      have hk : ((numOps (readBranch (enterBranch s)).1
          (rand (readBranch (enterBranch s)).2).1).toNat : Int) ≤ H := by
        rw [Int.toNat_of_nonneg hn]; omega
      have e4 : (leaveBranch s4).nodeCount = s4.nodeCount := rfl
      rw [e4]
      refine ⟨m2, fun h20 => ?_, fun hlt => ?_⟩
      · have := c2 h20; omega
      · have := b2 hlt; omega

theorem wide_populate : populate .branch wideState = .ok (wideTree, wideFinal) := rfl

/-- Counterexample to claim C17 as stated: from an empty root with both trackers
at 0 and the record `( + ) 22 22`, every coin makes a leaf and the final leaf
count is 22, more than 21. -/
theorem populate_count_exceeds_21 :
    ValidOps wideState ∧ wideState.theDepth = 0 ∧ wideState.nodeCount = 0 ∧
      populate .branch wideState = .ok (wideTree, wideFinal) ∧
      wideFinal.nodeCount = 22 ∧ ¬ wideFinal.nodeCount ≤ 21 := by
  refine ⟨?_, rfl, rfl, wide_populate, rfl, by decide⟩
  intro e he
  simp only [wideState, List.mem_singleton] at he
  subst he
  decide

/-- Claim C17, amended: the caps are checked only when a child kind is decided,
and leaves are appended whatever the counter, so the cap can be passed by more
than one.  From an empty root with both trackers at 0 and operator records with
`0 <= low <= high <= H`, `populate` returns a tree whose final leaf count is at
most `20 + 7 * (H - 1)`. -/
theorem populate_count_bound (H : Nat) (s : State) (hb : BoundedOps H s)
    (hd : s.theDepth = 0) (hn : s.nodeCount = 0) :
    ∃ t s', populate .branch s = .ok (t, s') ∧
      s'.nodeCount ≤ 20 + 7 * ((H - 1 : Nat) : Int) := by
  obtain ⟨t, s', h⟩ := populate_total .branch s (boundedOps_validOps hb)
  refine ⟨t, s', h, ?_⟩
  have := ((populateFuel_count_bound H _ _ _ _ _ h hb).2 rfl).2.2 (by omega)
  rw [hd] at this
  have e : overshoot H (0 + 1) = ((H - 1 : Nat) : Int) * 6 := by
    unfold overshoot; norm_num
  rw [e] at this
  omega

theorem wide_boundedOps : BoundedOps 22 wideState := by
  intro e he
  simp only [wideState, List.mem_singleton] at he
  subst he
  decide

theorem populate_count_bound_witness :
    BoundedOps 22 wideState ∧ wideState.theDepth = 0 ∧ wideState.nodeCount = 0 ∧
      ∃ t s', populate .branch wideState = .ok (t, s') ∧
        s'.nodeCount ≤ 20 + 7 * ((22 - 1 : Nat) : Int) :=
  ⟨wide_boundedOps, rfl, rfl, populate_count_bound 22 wideState wide_boundedOps rfl rfl⟩

/-! ## Order of the operands -/

theorem sameOperands_refl (s : State) : SameOperands s s := ⟨Eq.refl _, Eq.refl _⟩

theorem sameOperands_symm {a b : State} (h : SameOperands a b) : SameOperands b a :=
  ⟨h.1.symm, h.2.symm⟩

theorem sameOperands_trans {a b c : State} (h1 : SameOperands a b) (h2 : SameOperands b c) :
    SameOperands a c :=
  ⟨h2.1.trans h1.1, h2.2.trans h1.2⟩

theorem readBranch_sameOperands (s : State) : SameOperands s (readBranch s).2 := by
  unfold readBranch; split
  · exact sameOperands_refl s
  · split <;> exact sameOperands_refl s

theorem branchStart_sameOperands (s : State) :
    SameOperands s (rand (readBranch (enterBranch s)).2).2 :=
  sameOperands_trans (readBranch_sameOperands (enterBranch s))
    (sameOperands_refl (readBranch (enterBranch s)).2)

theorem readLeaf_congr {a b : State} (h : SameOperands a b) :
    (readLeaf b).1 = (readLeaf a).1 ∧ SameOperands (readLeaf a).2 (readLeaf b).2 := by
  obtain ⟨hf, hp⟩ := h
  unfold readLeaf
  rw [hf, hp]
  split
  · exact ⟨rfl, rfl, rfl⟩
  · split
    · exact ⟨rfl, rfl, rfl⟩
    · exact ⟨rfl, rfl, rfl⟩

theorem operandsRead_congr (n : Nat) : ∀ {a b : State}, SameOperands a b →
    operandsRead n b = operandsRead n a ∧ SameOperands (afterReads n a) (afterReads n b) := by
  induction n with
  | zero => intro a b h; exact ⟨rfl, h⟩
  | succ n ih =>
    intro a b h
    obtain ⟨h1, h2⟩ := readLeaf_congr h
    obtain ⟨h3, h4⟩ := ih h2
    exact ⟨by simp only [operandsRead, h1, h3], by simpa only [afterReads] using h4⟩

theorem operandsRead_add (a b : Nat) : ∀ s : State,
    operandsRead (a + b) s = operandsRead a s ++ operandsRead b (afterReads a s) ∧
      afterReads (a + b) s = afterReads b (afterReads a s) := by
  induction a with
  | zero => intro s; simp [operandsRead, afterReads]
  | succ a ih =>
    intro s
    rw [Nat.add_right_comm]
    simp only [operandsRead, afterReads, List.cons_append]
    exact ⟨by rw [(ih _).1], (ih _).2⟩

/-- The leaves of the node built carry, left to right, the tokens of the next
reads of the operand file, and the run leaves the cursor where those reads
leave it. -/
theorem populateFuel_leafNames (fuel : Nat) (ty : nodeType) (s : State) (t : Node)
    (s' : State) (h : populateFuel fuel ty s = .ok (t, s')) :
    leafNames t = operandsRead (countLeaves t) s ∧
      SameOperands (afterReads (countLeaves t) s) s' := by
  refine populateFuel_rule
    (fun _ s t s' => leafNames t = operandsRead (countLeaves t) s ∧
      SameOperands (afterReads (countLeaves t) s) s')
    (fun _ s cs s' => leafNamesList cs = operandsRead (countLeavesList cs) s ∧
      SameOperands (afterReads (countLeavesList cs) s) s')
    ?_ ?_ ?_ ?_ fuel ty s t s' h
  · intro s
    have hc : SameOperands s (countLeaf s) := sameOperands_refl s
    obtain ⟨h1, h2⟩ := readLeaf_congr hc
    simp only [leafNames, countLeaves, operandsRead, afterReads]
    exact ⟨by rw [h1], h2⟩
  · intro s
    refine ⟨by simp [leafNamesList, countLeavesList, operandsRead], ?_⟩
    simp only [countLeavesList, afterReads]
    exact sameOperands_refl s
  · intro k s c s2 cs s3 hc hl
    obtain ⟨n1, c1⟩ := hc
    obtain ⟨n2, c2⟩ := hl
    have hr : SameOperands s (rand s).2 := sameOperands_refl s
    obtain ⟨r1, r2⟩ := operandsRead_congr (countLeaves c) hr
    have hs2 : SameOperands (afterReads (countLeaves c) s) s2 := sameOperands_trans r2 c1
    obtain ⟨t1, t2⟩ := operandsRead_congr (countLeavesList cs) hs2
    obtain ⟨a1, a2⟩ := operandsRead_add (countLeaves c) (countLeavesList cs) s
    simp only [leafNamesList, countLeavesList]
    refine ⟨?_, ?_⟩
    · rw [a1, n1, n2, r1, t1]
    · rw [a2]; exact sameOperands_trans t2 c2
  · intro s cs s4 _ _ hl
    obtain ⟨n2, c2⟩ := hl
    obtain ⟨r1, r2⟩ := operandsRead_congr (countLeavesList cs) (branchStart_sameOperands s)
    simp only [leafNames, countLeaves]
    refine ⟨by rw [n2, r1], ?_⟩
    exact sameOperands_trans r2 c2

theorem readLeaf_cyclic (s : State) (hne : s.leafFile ≠ [])
    (hp : s.leafPos ≤ s.leafFile.length) :
    some (readLeaf s).1 = s.leafFile[s.leafPos % s.leafFile.length]? ∧
      (readLeaf s).2.leafFile = s.leafFile ∧
      (readLeaf s).2.leafPos ≤ s.leafFile.length ∧
      (readLeaf s).2.leafPos % s.leafFile.length = (s.leafPos + 1) % s.leafFile.length := by
  have hlen : 0 < s.leafFile.length := List.length_pos.mpr hne
  unfold readLeaf
  split
  · next t ht =>
    rw [List.get?_eq_getElem?] at ht
    have hlt : s.leafPos < s.leafFile.length := by
      by_contra hc
      rw [List.getElem?_eq_none (Nat.le_of_not_lt hc)] at ht
      cases ht
    refine ⟨?_, rfl, ?_, rfl⟩
    · rw [Nat.mod_eq_of_lt hlt, ht]
    · exact hlt
  · next hnone =>
    rw [List.get?_eq_getElem?] at hnone
    have hge : s.leafFile.length ≤ s.leafPos := by
      by_contra hc
      rw [List.getElem?_eq_getElem (Nat.lt_of_not_le hc)] at hnone
      cases hnone
    have heq : s.leafPos = s.leafFile.length := Nat.le_antisymm hp hge
    split
    · next t ht =>
      refine ⟨?_, rfl, hlen, ?_⟩
      · rw [heq, Nat.mod_self, ← List.head?_eq_getElem?, ht]
      · show 1 % s.leafFile.length = (s.leafPos + 1) % s.leafFile.length
        rw [heq, Nat.add_mod_left]
    · next hh =>
      cases hf : s.leafFile with
      | nil => exact absurd hf hne
      | cons a l => rw [hf] at hh; simp at hh

theorem operandsRead_cyclic (n : Nat) : ∀ (s : State), s.leafFile ≠ [] →
    s.leafPos ≤ s.leafFile.length → ∀ j, j < n →
    (operandsRead n s)[j]? = s.leafFile[(s.leafPos + j) % s.leafFile.length]? := by
  induction n with
  | zero => intro s _ _ j hj; omega
  | succ n ih =>
    intro s hne hp j hj
    obtain ⟨h1, h2, h3, h4⟩ := readLeaf_cyclic s hne hp
    cases j with
    | zero =>
      simp only [operandsRead, List.getElem?_cons_zero, Nat.add_zero]
      exact h1
    | succ j =>
      simp only [operandsRead, List.getElem?_cons_succ]
      rw [ih (readLeaf s).2 (by rw [h2]; exact hne) (by rw [h2]; exact h3) j (by omega), h2]
      have : ((readLeaf s).2.leafPos + j) % s.leafFile.length =
          (s.leafPos + (j + 1)) % s.leafFile.length := by
        rw [Nat.add_mod, h4, ← Nat.add_mod, Nat.add_assoc, Nat.add_comm 1 j]
      rw [this]

theorem renderTagged_snd (t : Node) : ∀ m, (renderTagged t).map Prod.snd = (express t m).1 := by
  refine Node.induct (fun t => ∀ m, (renderTagged t).map Prod.snd = (express t m).1)
    (fun l => ∀ (inter : String) m,
      (renderTaggedList inter l).map Prod.snd = (expressList inter l m).1) ?_ ?_ ?_ ?_ t
  · intro pre inter post list ih m
    rw [express_branch_fst, ← ih inter m]
    simp only [renderTagged, List.map_append]
    congr 1
    · congr 1
      split <;> rfl
    · split <;> rfl
  · intro name myDepth m
    simp [renderTagged, express_leaf]
  · intro inter m
    simp [renderTaggedList, expressList_nil]
  · intro aNode next ih1 ih2 inter m
    rw [expressList_cons_fst, ← ih1 m, ← ih2 inter (express aNode m).2]
    simp only [renderTaggedList, List.map_append]
    congr 1
    congr 1
    split <;> rfl

theorem renderTagged_leaves (t : Node) :
    ((renderTagged t).filter (fun p => p.1)).map Prod.snd = leafNames t := by
  refine Node.induct
    (fun t => ((renderTagged t).filter (fun p => p.1)).map Prod.snd = leafNames t)
    (fun l => ∀ (inter : String),
      ((renderTaggedList inter l).filter (fun p => p.1)).map Prod.snd = leafNamesList l)
    ?_ ?_ ?_ ?_ t
  · intro pre inter post list ih
    simp only [renderTagged, leafNames, List.filter_append, List.map_append, ih inter]
    have e1 : ∀ tok : String, (List.filter (fun p : Bool × String => p.1)
        (if suppressed tok = true then [] else [(false, tok)])) = [] := by
      intro tok; split <;> simp
    rw [e1, e1]; simp
  · intro name myDepth
    simp [renderTagged, leafNames]
  · intro inter
    simp [renderTaggedList, leafNamesList]
  · intro aNode next ih1 ih2 inter
    simp only [renderTaggedList, leafNamesList, List.filter_append, List.map_append, ih1,
      ih2 inter]
    have e1 : (List.filter (fun p : Bool × String => p.1)
        (if (!next.isEmpty && !suppressed inter) = true then [(false, inter)] else [])) = [] := by
      split <;> simp
    rw [e1]; simp

/-- Claim C19: `populate` and `express` visit the leaves in the same order.  For
every tree built by `populate`, the fragments that `express` prints for leaves,
taken left to right, are the operand tokens delivered by the successive reads of
the operand file made during `populate`, in read order; with a non-empty file of
`k` tokens and the cursor at `pos`, the `j`-th of them is the token at index
`(pos + j) mod k`, so none is skipped or reordered. -/
theorem express_leaves_in_fetch_order (ty : nodeType) (s : State) (t : Node) (s' : State)
    (m : Int) (h : populate ty s = .ok (t, s')) :
    (renderTagged t).map Prod.snd = (express t m).1 ∧
    ((renderTagged t).filter (fun p => p.1)).map Prod.snd =
      operandsRead (countLeaves t) s ∧
    (s.leafFile ≠ [] → s.leafPos ≤ s.leafFile.length → ∀ j, j < countLeaves t →
      (((renderTagged t).filter (fun p => p.1)).map Prod.snd)[j]? =
        s.leafFile[(s.leafPos + j) % s.leafFile.length]?) := by
  have hn := (populateFuel_leafNames _ _ _ _ _ h).1
  refine ⟨renderTagged_snd t m, ?_, ?_⟩
  · rw [renderTagged_leaves, hn]
  · intro hne hp j hj
    rw [renderTagged_leaves, hn]
    exact operandsRead_cyclic _ s hne hp j hj

theorem express_leaves_in_fetch_order_witness :
    populate .branch demoState = .ok (demoTree, demoFinal) ∧
    ((renderTagged demoTree).filter (fun p => p.1)).map Prod.snd = ["a", "b"] ∧
    ((renderTagged demoTree).map Prod.snd = (express demoTree 0).1 ∧
    ((renderTagged demoTree).filter (fun p => p.1)).map Prod.snd =
      operandsRead (countLeaves demoTree) demoState ∧
    (demoState.leafFile ≠ [] → demoState.leafPos ≤ demoState.leafFile.length →
      ∀ j, j < countLeaves demoTree →
      (((renderTagged demoTree).filter (fun p => p.1)).map Prod.snd)[j]? =
        demoState.leafFile[(demoState.leafPos + j) % demoState.leafFile.length]?)) :=
  ⟨demo_populate, by decide,
    express_leaves_in_fetch_order .branch demoState demoTree demoFinal 0 demo_populate⟩

end CompTree
